import Mathlib

/-!
Verification of the `VirusGenealogy` graph engine (src/virus_genealogy.h).

Shallow embedding choices:
* Identifiers are `Nat` (the C++ id type is an opaque totally-ordered key).
* A `Node` stores its payload (the `Virus`, modelled by the identifier it was
  constructed from, since `Virus` is exactly "a record constructed from the id")
  together with the ordered `parents` and `children` reference lists, both
  modelled as lists of identifiers in edge-insertion order (the C++ vectors of
  weak/shared pointers).
* The registry `known_ids : std::map<id, shared_ptr<Node>>` is an association
  list with unique keys.  Reference resolution (`weak_ptr::lock`, shared-ptr
  dereference) is modelled by registry lookup; this is exact as long as every
  referenced node is registered, which the consistency invariant `EdgeCon` below
  guarantees and which holds on every trace the theorems evaluate.
* Mutating operations return `Option VirusError × Genealogy`: the error that
  the C++ call throws (if any) together with the state of the object after the
  call returns or the exception escapes.  This keeps failure states observable,
  which matters because `remove` can fail from inside its cascade after having
  already mutated the graph.
* Payload construction (`std::make_shared<Virus>(id)` inside the `Node`
  constructor) may throw a caller-defined exception; this is modelled by a
  predicate `vOk : Nat → Bool` passed to the creation operations, with the
  thrown exception collapsed to the marker `PayloadFailure`.  In C++17 the
  right-hand side of `known_ids[id] = make_shared<Node>(id)` is evaluated
  before `operator[]` inserts, so a payload failure happens before any
  insertion; the `catch` block then runs `known_ids.erase(id)`, which is
  modelled literally (`regErase`).
* `remove` is recursive in the C++ source; it is modelled with explicit fuel.
  `none` means the recursion does not bottom out within the given fuel (the
  C++ program would be in an unbounded recursion).  Theorems about `remove`
  quantify over the fuel, so no fuel-adequacy assumption is ever used.
-/

inductive VirusError where
  | VirusNotFound : VirusError
  | VirusAlreadyCreated : VirusError
  | TriedToRemoveStemVirus : VirusError
  | PayloadFailure : VirusError
deriving DecidableEq

structure Node where
  virus : Nat
  parents : List Nat
  children : List Nat
deriving DecidableEq

abbrev Registry := List (Nat × Node)

structure Genealogy where
  stem_id : Nat
  known_ids : Registry
deriving DecidableEq

/-- Lookup in the registry (`known_ids.at` / `known_ids.contains`). -/
def regFind : Registry → Nat → Option Node
  | [], _ => none
  | (j, n) :: r, i => if i = j then some n else regFind r i

def containsId (m : Registry) (i : Nat) : Bool := (regFind m i).isSome

/-- `known_ids.erase(i)` (at most one entry per key ever exists). -/
def regErase (m : Registry) (i : Nat) : Registry :=
  m.filter (fun e => e.1 != i)

/-- Update the node stored under key `i`, if present. -/
def regUpdate (m : Registry) (i : Nat) (f : Node → Node) : Registry :=
  m.map (fun e => if e.1 = i then (e.1, f e.2) else e)

/-- `known_ids[i] = n` (replaces an existing binding, else appends). -/
def regInsert (m : Registry) (i : Nat) (n : Node) : Registry :=
  if containsId m i then regUpdate m i (fun _ => n) else m ++ [(i, n)]

/-- The parent id list of the node registered at `i` (empty if unregistered). -/
def parentsOf (m : Registry) (i : Nat) : List Nat :=
  ((regFind m i).map Node.parents).getD []

/-- The child id list of the node registered at `i` (empty if unregistered). -/
def childrenOf (m : Registry) (i : Nat) : List Nat :=
  ((regFind m i).map Node.children).getD []

def virusOf (m : Registry) (i : Nat) : Nat :=
  ((regFind m i).map Node.virus).getD 0

/-- `Node::add_parent`: `parents.push_back(parent); parent->children.push_back(this)`.
`c` is the child (the `this` node), `p` the new parent. -/
def addEdge (m : Registry) (c p : Nat) : Registry :=
  regUpdate (regUpdate m c (fun n => { n with parents := n.parents ++ [p] })) p
    (fun n => { n with children := n.children ++ [c] })

/-- Graph construction: the constructor registers the single stem node, whose
payload is built from `stem_id`.  (On payload failure no object exists, so only
the successful construction yields a state.) -/
def mkGenealogy (s : Nat) : Genealogy :=
  ⟨s, [(s, ⟨s, [], []⟩)]⟩

def get_stem_id (g : Genealogy) : Nat := g.stem_id

/-- `exists(id)`. -/
def existsId (g : Genealogy) (i : Nat) : Bool := containsId g.known_ids i

/-- `exists(parent_ids)`: the short-circuiting loop over the vector. -/
def existsAll (g : Genealogy) : List Nat → Bool
  | [] => true
  | i :: r => if existsId g i = false then false else existsAll g r

/-- `get_parents(id)`. -/
def get_parents (g : Genealogy) (i : Nat) : Except VirusError (List Nat) :=
  if existsId g i then .ok (parentsOf g.known_ids i) else .error .VirusNotFound

/-- `operator[](id)`: the payload reference. -/
def get_virus (g : Genealogy) (i : Nat) : Except VirusError Nat :=
  if existsId g i then .ok (virusOf g.known_ids i) else .error .VirusNotFound

/-- `create(id, parent_id)` (single-parent overload). -/
def create (vOk : Nat → Bool) (g : Genealogy) (id parent_id : Nat) :
    Option VirusError × Genealogy :=
  if existsId g id then (some .VirusAlreadyCreated, g)
  else if existsId g parent_id = false then (some .VirusNotFound, g)
  else if vOk id = false then (some .PayloadFailure, ⟨g.stem_id, regErase g.known_ids id⟩)
  else (none, ⟨g.stem_id, addEdge (regInsert g.known_ids id ⟨id, [], []⟩) id parent_id⟩)

/-- `create(id, parent_ids)` (multi-parent overload). -/
def create_many (vOk : Nat → Bool) (g : Genealogy) (id : Nat) (parent_ids : List Nat) :
    Option VirusError × Genealogy :=
  if existsId g id then (some .VirusAlreadyCreated, g)
  else if existsAll g parent_ids = false then (some .VirusNotFound, g)
  else if parent_ids = [] then (none, g)
  else if vOk id = false then (some .PayloadFailure, ⟨g.stem_id, regErase g.known_ids id⟩)
  else (none, ⟨g.stem_id,
      parent_ids.foldl (fun mm p => addEdge mm id p)
        (regInsert g.known_ids id ⟨id, [], []⟩)⟩)

/-- `connect(child_id, parent_id)`. -/
def connect (g : Genealogy) (child_id parent_id : Nat) : Option VirusError × Genealogy :=
  if !existsId g child_id || !existsId g parent_id then
    (some .VirusNotFound, g)
  else if parent_id ∈ parentsOf g.known_ids child_id then (none, g)
  else (none, ⟨g.stem_id, addEdge g.known_ids child_id parent_id⟩)

/-- `Node::remove_parent(x)`: erase the first parent entry with id `x` from the
node registered at `c`. -/
def removeParentOnce (m : Registry) (c x : Nat) : Registry :=
  regUpdate m c (fun n => { n with parents := n.parents.erase x })

/-- `Node::remove_child(x)`: erase the first child entry with id `x` from the
node registered at `p`. -/
def removeChildOnce (m : Registry) (p x : Nat) : Registry :=
  regUpdate m p (fun n => { n with children := n.children.erase x })

/-- One iteration of the first loop of `Node::remove_my_trace` for the node
with id `x`: detach `x` from child `c` and record `c` if it became an orphan. -/
def traceStep (x : Nat) (acc : List Nat × Registry) (c : Nat) : List Nat × Registry :=
  let m1 := removeParentOnce acc.2 c x
  (if parentsOf m1 c = [] then acc.1 ++ [c] else acc.1, m1)

/-- `Node::remove_my_trace` for the node registered at `x`: first loop over the
children (collecting new orphans), then loop over the (current) parents
removing `x` from their child lists.  Returns the orphan list and the registry. -/
def remove_my_trace (m : Registry) (x : Nat) : List Nat × Registry :=
  match regFind m x with
  | none => ([], m)
  | some n =>
    let r1 := n.children.foldl (traceStep x) ([], m)
    let ps := parentsOf r1.2 x
    (r1.1, ps.foldl (fun mm p => removeChildOnce mm p x) r1.2)

/-- Run a removal step over a list of orphans, propagating the first failure
(the C++ loop `for (auto &orphan : new_orphans) remove(orphan);` with an
exception aborting the loop). -/
def runList (step : Genealogy → Nat → Option (Option VirusError × Genealogy)) :
    Genealogy → List Nat → Option (Option VirusError × Genealogy)
  | g, [] => some (none, g)
  | g, o :: os =>
    match step g o with
    | none => none
    | some (some e, g1) => some (some e, g1)
    | some (none, g1) => runList step g1 os

/-- The body of `VirusGenealogy::remove`, parameterised by the recursive call. -/
def removeFuelAux (rec : Genealogy → Nat → Option (Option VirusError × Genealogy))
    (g : Genealogy) (i : Nat) : Option (Option VirusError × Genealogy) :=
  if i = g.stem_id then some (some .TriedToRemoveStemVirus, g)
  else if existsId g i = false then some (some .VirusNotFound, g)
  else
    match runList rec ⟨g.stem_id, (remove_my_trace g.known_ids i).2⟩
        (remove_my_trace g.known_ids i).1 with
    | none => none
    | some (some e, g1) => some (some e, g1)
    | some (none, g1) => some (none, ⟨g1.stem_id, regErase g1.known_ids i⟩)

/-- `remove(id)` with explicit fuel; `none` means the C++ recursion would not
terminate within that depth. -/
def removeFuel : Nat → Genealogy → Nat → Option (Option VirusError × Genealogy)
  | 0, _, _ => none
  | f + 1, g, i => removeFuelAux (removeFuel f) g i

/-- `remove(id)` with the canonical fuel (one more than the registry size,
enough for every cascade that erases at least one node per recursive call). -/
def remove (g : Genealogy) (i : Nat) : Option (Option VirusError × Genealogy) :=
  removeFuel (g.known_ids.length + 1) g i

/-- The model of the `children_iterator`: a position inside one node's ordered
child sequence.  `begin` is position 0 and `end` is the length of the child
list, mirroring the pointers `&children[0]` and `&children[children.size()]`;
iterator equality is position equality. -/
structure children_iterator where
  pos : Nat
deriving DecidableEq

/-- `get_children_begin(id)`. -/
def get_children_begin (g : Genealogy) (i : Nat) : Except VirusError children_iterator :=
  if existsId g i then .ok ⟨0⟩ else .error .VirusNotFound

/-- `get_children_end(id)`. -/
def get_children_end (g : Genealogy) (i : Nat) : Except VirusError children_iterator :=
  if existsId g i then .ok ⟨(childrenOf g.known_ids i).length⟩ else .error .VirusNotFound

/-- Dereferencing the iterator at position `k` of node `i`'s child sequence:
`(*m_ptr)->get_virus()`, the payload of the `k`-th child. -/
def iter_deref (g : Genealogy) (i k : Nat) : Option Nat :=
  match (childrenOf g.known_ids i).get? k with
  | none => none
  | some c => (regFind g.known_ids c).map Node.virus

/-- States reachable through the public interface, including the states left
behind by failed calls. -/
inductive Reachable : Genealogy → Prop where
  | init : ∀ s, Reachable (mkGenealogy s)
  | step_create : ∀ g vOk i p, Reachable g → Reachable (create vOk g i p).2
  | step_create_many : ∀ g vOk i ps, Reachable g → Reachable (create_many vOk g i ps).2
  | step_connect : ∀ g c p, Reachable g → Reachable (connect g c p).2
  | step_remove : ∀ g i f e g1, Reachable g → removeFuel f g i = some (e, g1) → Reachable g1

/-- Edge consistency: `p` occurs in `c`'s parent list exactly as often as `c`
occurs in `p`'s child list (with both lists in edge-insertion order, this is
the invariant that each added edge is recorded once on each side). -/
def EdgeCon (m : Registry) : Prop :=
  ∀ c p, (parentsOf m c).count p = (childrenOf m p).count c

/-- Edge consistency away from a set `Z` of half-removed nodes: live pairs are
consistent, and no live node references a half-removed one; every half-removed
node is still registered (its erasure is pending in an enclosing frame). -/
def IntInv (Z : List Nat) (m : Registry) : Prop :=
  (∀ c p, c ∉ Z → p ∉ Z → (parentsOf m c).count p = (childrenOf m p).count c) ∧
  (∀ z, z ∈ Z → ∀ y, y ∉ Z → (parentsOf m y).count z = 0 ∧ (childrenOf m y).count z = 0) ∧
  (∀ z, z ∈ Z → containsId m z = true)

/-- The self-orphan shape: a node whose parent list is empty but whose own
child list still contains itself.  `remove` on such a node re-queues it as its
own orphan forever. -/
def SelfOrphan (m : Registry) (x : Nat) : Prop :=
  parentsOf m x = [] ∧ x ∈ childrenOf m x ∧ containsId m x = true

/-- Decidable sufficient check for `EdgeCon` on a concrete registry: all referenced
ids are registered and all key pairs have matching edge counts. -/
def ConB (m : Registry) : Bool :=
  m.all (fun e => e.2.parents.all (fun p => containsId m p) &&
    e.2.children.all (fun c => containsId m c)) &&
  m.all (fun ec => m.all (fun ep =>
    ec.2.parents.count ep.1 == ep.2.children.count ec.1))

def vOkTrue : Nat → Bool := fun _ => true

/-! ## Registry primitive lemmas -/

theorem regFind_nil (j : Nat) : regFind [] j = none := rfl

theorem regFind_cons (k : Nat) (n : Node) (r : Registry) (j : Nat) :
    regFind ((k, n) :: r) j = if j = k then some n else regFind r j := rfl

theorem regUpdate_cons (k : Nat) (n : Node) (r : Registry) (i : Nat) (f : Node → Node) :
    regUpdate ((k, n) :: r) i f =
      (if k = i then (k, f n) else (k, n)) :: regUpdate r i f := by
  by_cases h : k = i <;> simp [regUpdate, h]

theorem regFind_update (m : Registry) (i : Nat) (f : Node → Node) (j : Nat) :
    regFind (regUpdate m i f) j = if j = i then (regFind m i).map f else regFind m j := by
  induction m with
  | nil => by_cases hj : j = i <;> simp [regUpdate, regFind, hj]
  | cons e r ih =>
    obtain ⟨k, n⟩ := e
    rw [regUpdate_cons]
    by_cases hk : k = i
    · subst hk
      by_cases hj : j = k
      · subst hj
        simp [regFind_cons]
      · simp [regFind_cons, hj, ih]
    · by_cases hj : j = k
      · subst hj
        have hji : j ≠ i := hk
        simp [regFind_cons, hk, hji]
      · have hik : ¬ i = k := fun hh => hk hh.symm
        simp only [if_neg hk, regFind_cons, if_neg hj, ih, if_neg hik]

theorem regErase_cons (k : Nat) (n : Node) (r : Registry) (i : Nat) :
    regErase ((k, n) :: r) i =
      if k = i then regErase r i else (k, n) :: regErase r i := by
  by_cases h : k = i <;> simp [regErase, h]

theorem regFind_erase (m : Registry) (i j : Nat) :
    regFind (regErase m i) j = if j = i then none else regFind m j := by
  induction m with
  | nil => by_cases hj : j = i <;> simp [regErase, regFind, hj]
  | cons e r ih =>
    obtain ⟨k, n⟩ := e
    rw [regErase_cons]
    by_cases hk : k = i
    · subst hk
      rw [if_pos rfl, ih]
      by_cases hj : j = k
      · simp [hj]
      · simp [hj, regFind_cons, if_neg hj]
    · rw [if_neg hk, regFind_cons]
      by_cases hj : j = k
      · subst hj
        have hji : j ≠ i := hk
        simp [regFind_cons, hji]
      · rw [if_neg hj, ih, regFind_cons, if_neg hj]

theorem regInsert_fresh (m : Registry) (i : Nat) (n : Node) (h : containsId m i = false) :
    regInsert m i n = m ++ [(i, n)] := by
  simp [regInsert, h]

theorem regFind_append_single (m : Registry) (i : Nat) (n : Node) (j : Nat) :
    regFind (m ++ [(i, n)]) j =
      if (regFind m j).isSome then regFind m j
      else if j = i then some n else none := by
  induction m with
  | nil => by_cases hj : j = i <;> simp [regFind, hj]
  | cons e r ih =>
    obtain ⟨k, q⟩ := e
    by_cases hj : j = k
    · simp [regFind_cons, hj]
    · simp only [List.cons_append, regFind_cons, if_neg hj, ih]

theorem regFind_insert_fresh (m : Registry) (i : Nat) (n : Node) (j : Nat)
    (h : containsId m i = false) :
    regFind (regInsert m i n) j = if j = i then some n else regFind m j := by
  rw [regInsert_fresh m i n h, regFind_append_single]
  by_cases hj : j = i
  · subst hj
    simp [containsId] at h
    simp [h]
  · simp only [if_neg hj]
    cases hf : regFind m j <;> simp

theorem containsId_update (m : Registry) (i : Nat) (f : Node → Node) (j : Nat) :
    containsId (regUpdate m i f) j = containsId m j := by
  by_cases hj : j = i
  · subst hj
    simp only [containsId, regFind_update, if_pos rfl]
    cases regFind m j <;> simp
  · simp [containsId, regFind_update, hj]

theorem containsId_erase (m : Registry) (i j : Nat) :
    containsId (regErase m i) j = if j = i then false else containsId m j := by
  by_cases hj : j = i <;> simp [containsId, regFind_erase, hj]

theorem containsId_insert_fresh (m : Registry) (i : Nat) (n : Node) (j : Nat)
    (h : containsId m i = false) :
    containsId (regInsert m i n) j = if j = i then true else containsId m j := by
  by_cases hj : j = i
  · subst hj
    simp [containsId, regFind_insert_fresh m j n j h]
  · simp [containsId, regFind_insert_fresh m i n j h, hj]

theorem regErase_of_notContains (m : Registry) (i : Nat) (h : containsId m i = false) :
    regErase m i = m := by
  induction m with
  | nil => rfl
  | cons e r ih =>
    obtain ⟨k, q⟩ := e
    by_cases hk : i = k
    · simp [containsId, regFind_cons, hk] at h
    · simp only [containsId, regFind_cons, if_neg hk] at h
      rw [regErase_cons, if_neg (fun hh => hk hh.symm), ih h]

/-! ## Accessor lemmas for the node-level mutations -/

theorem parentsOf_removeParentOnce (m : Registry) (c x y : Nat) :
    parentsOf (removeParentOnce m c x) y =
      if y = c then (parentsOf m c).erase x else parentsOf m y := by
  unfold removeParentOnce parentsOf
  rw [regFind_update]
  by_cases hy : y = c
  · subst hy
    simp only [if_pos rfl]
    cases regFind m y <;> simp
  · simp [hy]

theorem childrenOf_removeParentOnce (m : Registry) (c x y : Nat) :
    childrenOf (removeParentOnce m c x) y = childrenOf m y := by
  unfold removeParentOnce childrenOf
  rw [regFind_update]
  by_cases hy : y = c
  · subst hy
    simp only [if_pos rfl]
    cases regFind m y <;> simp
  · simp [hy]

theorem containsId_removeParentOnce (m : Registry) (c x y : Nat) :
    containsId (removeParentOnce m c x) y = containsId m y :=
  containsId_update m c _ y

theorem childrenOf_removeChildOnce (m : Registry) (p x y : Nat) :
    childrenOf (removeChildOnce m p x) y =
      if y = p then (childrenOf m p).erase x else childrenOf m y := by
  unfold removeChildOnce childrenOf
  rw [regFind_update]
  by_cases hy : y = p
  · subst hy
    simp only [if_pos rfl]
    cases regFind m y <;> simp
  · simp [hy]

theorem parentsOf_removeChildOnce (m : Registry) (p x y : Nat) :
    parentsOf (removeChildOnce m p x) y = parentsOf m y := by
  unfold removeChildOnce parentsOf
  rw [regFind_update]
  by_cases hy : y = p
  · subst hy
    simp only [if_pos rfl]
    cases regFind m y <;> simp
  · simp [hy]

theorem containsId_removeChildOnce (m : Registry) (p x y : Nat) :
    containsId (removeChildOnce m p x) y = containsId m y :=
  containsId_update m p _ y

theorem containsId_addEdge (m : Registry) (c p y : Nat) :
    containsId (addEdge m c p) y = containsId m y := by
  unfold addEdge
  rw [containsId_update, containsId_update]

theorem parentsOf_addEdge (m : Registry) (c p y : Nat) (hc : containsId m c = true) :
    parentsOf (addEdge m c p) y = if y = c then parentsOf m c ++ [p] else parentsOf m y := by
  obtain ⟨n, hn⟩ : ∃ n, regFind m c = some n := by
    unfold containsId at hc
    cases hf : regFind m c
    · rw [hf] at hc; simp at hc
    · exact ⟨_, rfl⟩
  unfold addEdge parentsOf
  rw [regFind_update]
  by_cases hy : y = p
  · subst hy
    rw [if_pos rfl, regFind_update]
    by_cases hyc : y = c
    · subst hyc
      simp [hn]
    · simp only [if_neg hyc]
      cases regFind m y <;> simp [hyc]
  · rw [if_neg hy, regFind_update]
    by_cases hyc : y = c
    · subst hyc
      simp [hn]
    · simp [hyc]

theorem childrenOf_addEdge (m : Registry) (c p y : Nat) (hp : containsId m p = true) :
    childrenOf (addEdge m c p) y = if y = p then childrenOf m p ++ [c] else childrenOf m y := by
  obtain ⟨n, hn⟩ : ∃ n, regFind m p = some n := by
    unfold containsId at hp
    cases hf : regFind m p
    · rw [hf] at hp; simp at hp
    · exact ⟨_, rfl⟩
  unfold addEdge childrenOf
  rw [regFind_update]
  by_cases hy : y = p
  · subst hy
    rw [if_pos rfl, regFind_update]
    by_cases hyc : y = c
    · subst hyc
      simp [hn]
    · simp [hyc, hn]
  · rw [if_neg hy, regFind_update]
    by_cases hyc : y = c
    · subst hyc
      simp only [if_pos rfl, if_neg hy]
      cases regFind m y <;> simp
    · simp only [if_neg hyc, if_neg hy]

theorem parentsOf_insert_fresh (m : Registry) (i y : Nat) (n : Node)
    (h : containsId m i = false) :
    parentsOf (regInsert m i n) y = if y = i then n.parents else parentsOf m y := by
  unfold parentsOf
  rw [regFind_insert_fresh m i n y h]
  by_cases hy : y = i <;> simp [hy]

theorem childrenOf_insert_fresh (m : Registry) (i y : Nat) (n : Node)
    (h : containsId m i = false) :
    childrenOf (regInsert m i n) y = if y = i then n.children else childrenOf m y := by
  unfold childrenOf
  rw [regFind_insert_fresh m i n y h]
  by_cases hy : y = i <;> simp [hy]

theorem parentsOf_erase (m : Registry) (i y : Nat) :
    parentsOf (regErase m i) y = if y = i then [] else parentsOf m y := by
  unfold parentsOf
  rw [regFind_erase]
  by_cases hy : y = i <;> simp [hy]

theorem childrenOf_erase (m : Registry) (i y : Nat) :
    childrenOf (regErase m i) y = if y = i then [] else childrenOf m y := by
  unfold childrenOf
  rw [regFind_erase]
  by_cases hy : y = i <;> simp [hy]

theorem parentsOf_eq_nil_of_notContains (m : Registry) (i : Nat)
    (h : containsId m i = false) : parentsOf m i = [] := by
  unfold containsId at h
  unfold parentsOf
  cases hf : regFind m i
  · simp
  · rw [hf] at h; simp at h

theorem childrenOf_eq_nil_of_notContains (m : Registry) (i : Nat)
    (h : containsId m i = false) : childrenOf m i = [] := by
  unfold containsId at h
  unfold childrenOf
  cases hf : regFind m i
  · simp
  · rw [hf] at h; simp at h

/-! ## Iterated first-occurrence erasure -/

/-- Apply `List.erase x` a given number of times. -/
def repeatErase (x : Nat) : Nat → List Nat → List Nat
  | 0, l => l
  | k + 1, l => repeatErase x k (l.erase x)

theorem repeatErase_nil (x k : Nat) : repeatErase x k [] = [] := by
  induction k with
  | zero => rfl
  | succ k ih => simp [repeatErase, ih]

theorem count_repeatErase_self (x k : Nat) (l : List Nat) :
    (repeatErase x k l).count x = l.count x - k := by
  induction k generalizing l with
  | zero => simp [repeatErase]
  | succ k ih =>
    rw [repeatErase, ih, List.count_erase_self, Nat.sub_sub, Nat.add_comm]

theorem count_repeatErase_ne (x p : Nat) (hpx : p ≠ x) (k : Nat) (l : List Nat) :
    (repeatErase x k l).count p = l.count p := by
  induction k generalizing l with
  | zero => simp [repeatErase]
  | succ k ih =>
    rw [repeatErase, ih, List.count_erase_of_ne hpx]

theorem mem_repeatErase_ne (x p : Nat) (hpx : p ≠ x) (k : Nat) (l : List Nat) :
    p ∈ repeatErase x k l ↔ p ∈ l := by
  rw [← List.count_pos_iff, ← List.count_pos_iff, count_repeatErase_ne x p hpx]

/-! ## Characterizing the two loops of remove_my_trace -/

theorem traceFold_parentsOf (x : Nat) (cs : List Nat) (acc : List Nat × Registry) (y : Nat) :
    parentsOf ((cs.foldl (traceStep x) acc).2) y =
      repeatErase x (cs.count y) (parentsOf acc.2 y) := by
  induction cs generalizing acc with
  | nil => simp [repeatErase]
  | cons c cs ih =>
    rw [List.foldl_cons, ih]
    by_cases hyc : y = c
    · subst hyc
      rw [List.count_cons_self]
      show repeatErase x (cs.count y) (parentsOf (removeParentOnce acc.2 y x) y) = _
      rw [parentsOf_removeParentOnce, if_pos rfl]
      rfl
    · rw [List.count_cons_of_ne (by simpa using hyc)]
      show repeatErase x (cs.count y) (parentsOf (removeParentOnce acc.2 c x) y) = _
      rw [parentsOf_removeParentOnce, if_neg hyc]

theorem traceFold_childrenOf (x : Nat) (cs : List Nat) (acc : List Nat × Registry) (y : Nat) :
    childrenOf ((cs.foldl (traceStep x) acc).2) y = childrenOf acc.2 y := by
  induction cs generalizing acc with
  | nil => rfl
  | cons c cs ih =>
    rw [List.foldl_cons, ih]
    show childrenOf (removeParentOnce acc.2 c x) y = _
    rw [childrenOf_removeParentOnce]

theorem traceFold_containsId (x : Nat) (cs : List Nat) (acc : List Nat × Registry) (y : Nat) :
    containsId ((cs.foldl (traceStep x) acc).2) y = containsId acc.2 y := by
  induction cs generalizing acc with
  | nil => rfl
  | cons c cs ih =>
    rw [List.foldl_cons, ih]
    show containsId (removeParentOnce acc.2 c x) y = _
    rw [containsId_removeParentOnce]

theorem traceFold_orphans_sub (x : Nat) (cs : List Nat) (acc : List Nat × Registry) :
    ∀ o ∈ (cs.foldl (traceStep x) acc).1, o ∈ acc.1 ∨ o ∈ cs := by
  induction cs generalizing acc with
  | nil => intro o ho; exact Or.inl ho
  | cons c cs ih =>
    intro o ho
    rw [List.foldl_cons] at ho
    rcases ih (traceStep x acc c) o ho with h | h
    · simp only [traceStep] at h
      by_cases hemp : parentsOf (removeParentOnce acc.2 c x) c = []
      · rw [if_pos hemp] at h
        rcases List.mem_append.1 h with h | h
        · exact Or.inl h
        · simp at h
          subst h
          exact Or.inr (List.mem_cons_self _ _)
      · rw [if_neg hemp] at h
        exact Or.inl h
    · exact Or.inr (List.mem_cons_of_mem _ h)

theorem traceFold_orphans_empty (x : Nat) (cs : List Nat) (acc : List Nat × Registry)
    (hacc : ∀ o ∈ acc.1, parentsOf acc.2 o = []) :
    ∀ o ∈ (cs.foldl (traceStep x) acc).1, parentsOf ((cs.foldl (traceStep x) acc).2) o = [] := by
  induction cs generalizing acc with
  | nil => exact hacc
  | cons c cs ih =>
    rw [List.foldl_cons]
    apply ih
    intro o ho
    simp only [traceStep] at ho ⊢
    by_cases hemp : parentsOf (removeParentOnce acc.2 c x) c = []
    · rw [if_pos hemp] at ho
      rcases List.mem_append.1 ho with h | h
      · rw [parentsOf_removeParentOnce]
        by_cases hoc : o = c
        · rw [if_pos hoc, ← hoc, hacc o h]
          rfl
        · rw [if_neg hoc]
          exact hacc o h
      · simp at h
        subst h
        exact hemp
    · rw [if_neg hemp] at ho
      rw [parentsOf_removeParentOnce]
      by_cases hoc : o = c
      · rw [if_pos hoc, ← hoc, hacc o ho]
        rfl
      · rw [if_neg hoc]
        exact hacc o ho

theorem traceFold_orphans_mono (x : Nat) (cs : List Nat) (acc : List Nat × Registry) :
    ∀ o ∈ acc.1, o ∈ (cs.foldl (traceStep x) acc).1 := by
  induction cs generalizing acc with
  | nil => intro o ho; exact ho
  | cons c cs ih =>
    intro o ho
    rw [List.foldl_cons]
    apply ih
    simp only [traceStep]
    by_cases hemp : parentsOf (removeParentOnce acc.2 c x) c = []
    · rw [if_pos hemp]
      exact List.mem_append.2 (Or.inl ho)
    · rw [if_neg hemp]
      exact ho

theorem traceFold_self_queued (x : Nat) (cs : List Nat) (acc : List Nat × Registry)
    (hemp : parentsOf acc.2 x = []) (hmem : x ∈ cs) :
    x ∈ (cs.foldl (traceStep x) acc).1 := by
  induction cs generalizing acc with
  | nil => cases hmem
  | cons c cs ih =>
    rw [List.foldl_cons]
    by_cases hcx : c = x
    · apply traceFold_orphans_mono
      simp only [traceStep]
      have h1 : parentsOf (removeParentOnce acc.2 c x) c = [] := by
        rw [parentsOf_removeParentOnce, if_pos rfl, hcx, hemp]
        rfl
      rw [if_pos h1]
      exact List.mem_append.2 (Or.inr (List.mem_singleton.2 hcx.symm))
    · have hmem2 : x ∈ cs := by
        rcases List.mem_cons.1 hmem with h | h
        · exact absurd h.symm hcx
        · exact h
      refine ih _ ?_ hmem2
      simp only [traceStep]
      rw [parentsOf_removeParentOnce, if_neg (fun hh => hcx hh.symm), hemp]

theorem childFold_childrenOf (x : Nat) (ps : List Nat) (m : Registry) (y : Nat) :
    childrenOf (ps.foldl (fun mm p => removeChildOnce mm p x) m) y =
      repeatErase x (ps.count y) (childrenOf m y) := by
  induction ps generalizing m with
  | nil => simp [repeatErase]
  | cons p ps ih =>
    rw [List.foldl_cons, ih]
    by_cases hyp : y = p
    · subst hyp
      rw [List.count_cons_self, childrenOf_removeChildOnce, if_pos rfl]
      rfl
    · rw [List.count_cons_of_ne (by simpa using hyp), childrenOf_removeChildOnce, if_neg hyp]

theorem childFold_parentsOf (x : Nat) (ps : List Nat) (m : Registry) (y : Nat) :
    parentsOf (ps.foldl (fun mm p => removeChildOnce mm p x) m) y = parentsOf m y := by
  induction ps generalizing m with
  | nil => rfl
  | cons p ps ih =>
    rw [List.foldl_cons, ih, parentsOf_removeChildOnce]

theorem childFold_containsId (x : Nat) (ps : List Nat) (m : Registry) (y : Nat) :
    containsId (ps.foldl (fun mm p => removeChildOnce mm p x) m) y = containsId m y := by
  induction ps generalizing m with
  | nil => rfl
  | cons p ps ih =>
    rw [List.foldl_cons, ih, containsId_removeChildOnce]

/-! ## Characterizing remove_my_trace -/

/-- The parent list of the node being removed as it stands after the first
loop of `remove_my_trace` (self-occurrences already erased). -/
def tracePs (m : Registry) (x : Nat) : List Nat :=
  repeatErase x ((childrenOf m x).count x) (parentsOf m x)

theorem trace_of_notContains (m : Registry) (x : Nat) (h : containsId m x = false) :
    remove_my_trace m x = ([], m) := by
  unfold containsId at h
  unfold remove_my_trace
  cases hf : regFind m x
  · rfl
  · rw [hf] at h; simp at h

theorem childrenOf_eq_node (m : Registry) (x : Nat) (n : Node) (hn : regFind m x = some n) :
    childrenOf m x = n.children := by
  unfold childrenOf
  rw [hn]
  rfl

theorem trace_eq_of_find (m : Registry) (x : Nat) (n : Node) (hn : regFind m x = some n) :
    remove_my_trace m x =
      ((n.children.foldl (traceStep x) ([], m)).1,
        (parentsOf (n.children.foldl (traceStep x) ([], m)).2 x).foldl
          (fun mm p => removeChildOnce mm p x) (n.children.foldl (traceStep x) ([], m)).2) := by
  unfold remove_my_trace
  rw [hn]

theorem trace_parentsOf (m : Registry) (x y : Nat) :
    parentsOf (remove_my_trace m x).2 y =
      repeatErase x ((childrenOf m x).count y) (parentsOf m y) := by
  cases hn : regFind m x with
  | none =>
    have hch : childrenOf m x = [] := by
      unfold childrenOf
      rw [hn]
      rfl
    rw [trace_of_notContains m x (by unfold containsId; rw [hn]; rfl), hch]
    simp [repeatErase]
  | some n =>
    rw [trace_eq_of_find m x n hn]
    show parentsOf (List.foldl (fun mm p => removeChildOnce mm p x) _ _) y = _
    rw [childFold_parentsOf, traceFold_parentsOf, childrenOf_eq_node m x n hn]

theorem trace_childrenOf (m : Registry) (x y : Nat) (hc : containsId m x = true) :
    childrenOf (remove_my_trace m x).2 y =
      repeatErase x ((tracePs m x).count y) (childrenOf m y) := by
  obtain ⟨n, hn⟩ : ∃ n, regFind m x = some n := by
    unfold containsId at hc
    cases hf : regFind m x
    · rw [hf] at hc; simp at hc
    · exact ⟨_, rfl⟩
  have hps : parentsOf (n.children.foldl (traceStep x) ([], m)).2 x = tracePs m x := by
    rw [traceFold_parentsOf]
    unfold tracePs
    rw [childrenOf_eq_node m x n hn]
  rw [trace_eq_of_find m x n hn]
  show childrenOf (List.foldl (fun mm p => removeChildOnce mm p x) _ _) y = _
  rw [childFold_childrenOf, traceFold_childrenOf, hps]

theorem trace_containsId (m : Registry) (x y : Nat) :
    containsId (remove_my_trace m x).2 y = containsId m y := by
  cases hn : regFind m x with
  | none =>
    rw [trace_of_notContains m x (by unfold containsId; rw [hn]; rfl)]
  | some n =>
    rw [trace_eq_of_find m x n hn]
    show containsId (List.foldl (fun mm p => removeChildOnce mm p x) _ _) y = _
    rw [childFold_containsId, traceFold_containsId]

theorem trace_orphans_sub (m : Registry) (x : Nat) :
    ∀ o ∈ (remove_my_trace m x).1, o ∈ childrenOf m x := by
  cases hn : regFind m x with
  | none =>
    rw [trace_of_notContains m x (by unfold containsId; rw [hn]; rfl)]
    intro o ho
    cases ho
  | some n =>
    rw [trace_eq_of_find m x n hn]
    intro o ho
    rw [childrenOf_eq_node m x n hn]
    rcases traceFold_orphans_sub x n.children ([], m) o ho with h | h
    · cases h
    · exact h

theorem trace_orphans_empty (m : Registry) (x : Nat) :
    ∀ o ∈ (remove_my_trace m x).1, parentsOf (remove_my_trace m x).2 o = [] := by
  cases hn : regFind m x with
  | none =>
    rw [trace_of_notContains m x (by unfold containsId; rw [hn]; rfl)]
    intro o ho
    cases ho
  | some n =>
    rw [trace_eq_of_find m x n hn]
    intro o ho
    show parentsOf (List.foldl (fun mm p => removeChildOnce mm p x) _ _) o = []
    rw [childFold_parentsOf]
    exact traceFold_orphans_empty x n.children ([], m) (by intro o ho; cases ho) o ho

theorem trace_self_queued (m : Registry) (x : Nat) (hemp : parentsOf m x = [])
    (hmem : x ∈ childrenOf m x) :
    x ∈ (remove_my_trace m x).1 := by
  obtain ⟨n, hn⟩ : ∃ n, regFind m x = some n := by
    cases hf : regFind m x
    · unfold childrenOf at hmem
      rw [hf] at hmem
      cases hmem
    · exact ⟨_, rfl⟩
  rw [trace_eq_of_find m x n hn]
  exact traceFold_self_queued x n.children ([], m) hemp
    (by rw [childrenOf_eq_node m x n hn] at hmem; exact hmem)

theorem trace_selfOrphan_self (m : Registry) (x : Nat) (h : SelfOrphan m x) :
    x ∈ (remove_my_trace m x).1 ∧ SelfOrphan (remove_my_trace m x).2 x := by
  obtain ⟨hemp, hmem, hc⟩ := h
  have htps : tracePs m x = [] := by
    unfold tracePs
    rw [hemp, repeatErase_nil]
  refine ⟨trace_self_queued m x hemp hmem, ?_, ?_, ?_⟩
  · rw [trace_parentsOf, hemp, repeatErase_nil]
  · rw [trace_childrenOf m x x hc, htps]
    simpa [repeatErase] using hmem
  · rw [trace_containsId]
    exact hc

theorem trace_selfOrphan_other (m : Registry) (y x : Nat) (h : SelfOrphan m x)
    (hne : y ≠ x) : SelfOrphan (remove_my_trace m y).2 x := by
  obtain ⟨hemp, hmem, hc⟩ := h
  by_cases hcy : containsId m y = true
  · refine ⟨?_, ?_, ?_⟩
    · rw [trace_parentsOf, hemp, repeatErase_nil]
    · rw [trace_childrenOf m y x hcy]
      exact (mem_repeatErase_ne y x (fun hh => hne hh.symm) _ _).2 hmem
    · rw [trace_containsId]
      exact hc
  · rw [trace_of_notContains m y (by simpa using hcy)]
    exact ⟨hemp, hmem, hc⟩

theorem notMem_cons_split {a b : Nat} {Z : List Nat} (h : a ∉ b :: Z) : a ≠ b ∧ a ∉ Z := by
  constructor
  · intro hh
    exact h (hh ▸ List.mem_cons_self _ _)
  · intro hh
    exact h (List.mem_cons_of_mem _ hh)

theorem notMem_cons_build {a b : Nat} {Z : List Nat} (h1 : a ≠ b) (h2 : a ∉ Z) :
    a ∉ b :: Z := by
  intro hh
  rcases List.mem_cons.1 hh with h | h
  · exact h1 h
  · exact h2 h

theorem trace_main_inv (Z : List Nat) (m : Registry) (x : Nat) (h : IntInv Z m)
    (hx : x ∉ Z) (hc : containsId m x = true) :
    IntInv (x :: Z) (remove_my_trace m x).2 := by
  obtain ⟨h1, h2, h3⟩ := h
  refine ⟨?_, ?_, ?_⟩
  · intro c p hcZ hpZ
    obtain ⟨hcx, hcZ'⟩ := notMem_cons_split hcZ
    obtain ⟨hpx, hpZ'⟩ := notMem_cons_split hpZ
    rw [trace_parentsOf, trace_childrenOf m x p hc,
      count_repeatErase_ne x p hpx, count_repeatErase_ne x c hcx]
    exact h1 c p hcZ' hpZ'
  · intro z hz y hy
    obtain ⟨hyx, hyZ⟩ := notMem_cons_split hy
    rcases List.mem_cons.1 hz with hzx | hzZ
    · subst hzx
      constructor
      · rw [trace_parentsOf, count_repeatErase_self, h1 y z hyZ hx]
        exact Nat.sub_self _
      · rw [trace_childrenOf m z y hc, count_repeatErase_self]
        have heq : (tracePs m z).count y = (childrenOf m y).count z := by
          unfold tracePs
          rw [count_repeatErase_ne z y hyx]
          exact h1 z y hx hyZ
        rw [heq]
        exact Nat.sub_self _
    · have hzx : z ≠ x := fun hh => hx (hh ▸ hzZ)
      constructor
      · rw [trace_parentsOf, count_repeatErase_ne x z hzx]
        exact (h2 z hzZ y hyZ).1
      · rw [trace_childrenOf m x y hc, count_repeatErase_ne x z hzx]
        exact (h2 z hzZ y hyZ).2
  · intro z hz
    rw [trace_containsId]
    rcases List.mem_cons.1 hz with hzx | hzZ
    · subst hzx
      exact hc
    · exact h3 z hzZ

theorem selfOrphan_erase (m : Registry) (y x : Nat) (h : SelfOrphan m x) (hne : y ≠ x) :
    SelfOrphan (regErase m y) x := by
  obtain ⟨hemp, hmem, hc⟩ := h
  refine ⟨?_, ?_, ?_⟩
  · rw [parentsOf_erase, if_neg (fun hh => hne hh.symm)]
    exact hemp
  · rw [childrenOf_erase, if_neg (fun hh => hne hh.symm)]
    exact hmem
  · rw [containsId_erase, if_neg (fun hh => hne hh.symm)]
    exact hc

theorem intinv_erase (Z : List Nat) (m : Registry) (x : Nat) (h : IntInv (x :: Z) m)
    (hx : x ∉ Z) : IntInv Z (regErase m x) := by
  obtain ⟨h1, h2, h3⟩ := h
  have hxZ : x ∈ x :: Z := List.mem_cons_self _ _
  refine ⟨?_, ?_, ?_⟩
  · intro c p hcZ hpZ
    rw [parentsOf_erase, childrenOf_erase]
    by_cases hcx : c = x
    · subst hcx
      rw [if_pos rfl]
      by_cases hpx : p = c
      · rw [if_pos hpx]
        simp
      · rw [if_neg hpx]
        have hp' : p ∉ c :: Z := notMem_cons_build hpx hpZ
        have h0 := (h2 c hxZ p hp').2
        simp only [List.count_nil]
        exact h0.symm
    · by_cases hpx : p = x
      · subst hpx
        rw [if_pos rfl, if_neg hcx]
        have hc' : c ∉ p :: Z := notMem_cons_build hcx hcZ
        have h0 := (h2 p hxZ c hc').1
        simp only [List.count_nil]
        exact h0
      · rw [if_neg hcx, if_neg hpx]
        exact h1 c p (notMem_cons_build hcx hcZ) (notMem_cons_build hpx hpZ)
  · intro z hz y hy
    rw [parentsOf_erase, childrenOf_erase]
    by_cases hyx : y = x
    · rw [if_pos hyx, if_pos hyx]
      simp
    · rw [if_neg hyx, if_neg hyx]
      exact h2 z (List.mem_cons_of_mem _ hz) y (notMem_cons_build hyx hy)
  · intro z hz
    have hzx : z ≠ x := fun hh => hx (hh ▸ hz)
    rw [containsId_erase, if_neg hzx]
    exact h3 z (List.mem_cons_of_mem _ hz)

/-! ## Unfolding lemmas for the cascade runner -/

theorem removeFuel_zero (g : Genealogy) (i : Nat) : removeFuel 0 g i = none := rfl

theorem removeFuel_succ (f : Nat) (g : Genealogy) (i : Nat) :
    removeFuel (f + 1) g i = removeFuelAux (removeFuel f) g i := rfl

theorem runList_nil (step : Genealogy → Nat → Option (Option VirusError × Genealogy))
    (g : Genealogy) : runList step g [] = some (none, g) := rfl

theorem runList_cons_none (step : Genealogy → Nat → Option (Option VirusError × Genealogy))
    (g : Genealogy) (o : Nat) (os : List Nat) (h : step g o = none) :
    runList step g (o :: os) = none := by
  unfold runList
  rw [h]

theorem runList_cons_err (step : Genealogy → Nat → Option (Option VirusError × Genealogy))
    (g : Genealogy) (o : Nat) (os : List Nat) (e : VirusError) (g1 : Genealogy)
    (h : step g o = some (some e, g1)) :
    runList step g (o :: os) = some (some e, g1) := by
  unfold runList
  rw [h]

theorem runList_cons_ok (step : Genealogy → Nat → Option (Option VirusError × Genealogy))
    (g : Genealogy) (o : Nat) (os : List Nat) (g1 : Genealogy)
    (h : step g o = some (none, g1)) :
    runList step g (o :: os) = runList step g1 os := by
  conv_lhs => unfold runList
  rw [h]

theorem runList_inv_cons (step : Genealogy → Nat → Option (Option VirusError × Genealogy))
    (g : Genealogy) (o : Nat) (os : List Nat) (r : Option VirusError × Genealogy)
    (h : runList step g (o :: os) = some r) :
    (∃ e g1, step g o = some (some e, g1) ∧ r = (some e, g1)) ∨
    (∃ g1, step g o = some (none, g1) ∧ runList step g1 os = some r) := by
  cases hs : step g o with
  | none =>
    rw [runList_cons_none step g o os hs] at h
    cases h
  | some q =>
    obtain ⟨e, g1⟩ := q
    cases e with
    | some e =>
      rw [runList_cons_err step g o os e g1 hs] at h
      exact Or.inl ⟨e, g1, rfl, (Option.some.inj h).symm⟩
    | none =>
      refine Or.inr ⟨g1, rfl, ?_⟩
      rw [← runList_cons_ok step g o os g1 hs]
      exact h

theorem removeFuelAux_cases (rec : Genealogy → Nat → Option (Option VirusError × Genealogy))
    (g : Genealogy) (x : Nat) (r : Option VirusError × Genealogy)
    (h : removeFuelAux rec g x = some r) :
    (x = g.stem_id ∧ r = (some .TriedToRemoveStemVirus, g)) ∨
    (x ≠ g.stem_id ∧ existsId g x = false ∧ r = (some .VirusNotFound, g)) ∨
    (x ≠ g.stem_id ∧ existsId g x = true ∧
      ((∃ e g1, runList rec ⟨g.stem_id, (remove_my_trace g.known_ids x).2⟩
          (remove_my_trace g.known_ids x).1 = some (some e, g1) ∧ r = (some e, g1)) ∨
       (∃ g1, runList rec ⟨g.stem_id, (remove_my_trace g.known_ids x).2⟩
          (remove_my_trace g.known_ids x).1 = some (none, g1) ∧
          r = (none, ⟨g1.stem_id, regErase g1.known_ids x⟩)))) := by
  unfold removeFuelAux at h
  by_cases h1 : x = g.stem_id
  · rw [if_pos h1] at h
    exact Or.inl ⟨h1, (Option.some.inj h).symm⟩
  · rw [if_neg h1] at h
    by_cases h2 : existsId g x = false
    · rw [if_pos h2] at h
      exact Or.inr (Or.inl ⟨h1, h2, (Option.some.inj h).symm⟩)
    · rw [if_neg h2] at h
      refine Or.inr (Or.inr ⟨h1, by simpa using h2, ?_⟩)
      cases hr : runList rec ⟨g.stem_id, (remove_my_trace g.known_ids x).2⟩
          (remove_my_trace g.known_ids x).1 with
      | none =>
        rw [hr] at h
        cases h
      | some q =>
        obtain ⟨e, g1⟩ := q
        rw [hr] at h
        cases e with
        | some e =>
          exact Or.inl ⟨e, g1, rfl, (Option.some.inj h).symm⟩
        | none =>
          exact Or.inr ⟨g1, rfl, (Option.some.inj h).symm⟩

/-! ## Generic preservation through the cascade runner -/

theorem runList_pres (step : Genealogy → Nat → Option (Option VirusError × Genealogy))
    (P : Genealogy → Genealogy → Prop) (hrefl : ∀ g, P g g)
    (htrans : ∀ a b c, P a b → P b c → P a c)
    (hstep : ∀ g o r, step g o = some r → P g r.2) :
    ∀ os g r, runList step g os = some r → P g r.2 := by
  intro os
  induction os with
  | nil =>
    intro g r h
    rw [runList_nil] at h
    cases Option.some.inj h
    exact hrefl g
  | cons o os ih =>
    intro g r h
    rcases runList_inv_cons step g o os r h with ⟨e, g1, hs, hr⟩ | ⟨g1, hs, hrest⟩
    · rw [hr]
      exact hstep g o (some e, g1) hs
    · exact htrans g g1 r.2 (hstep g o (none, g1) hs) (ih g1 r hrest)

theorem runList_selfOrphan_keep (step : Genealogy → Nat → Option (Option VirusError × Genealogy))
    (x : Nat)
    (hQ : ∀ g y g1, SelfOrphan g.known_ids x → step g y = some (none, g1) →
      SelfOrphan g1.known_ids x) :
    ∀ os g g1, SelfOrphan g.known_ids x → runList step g os = some (none, g1) →
      SelfOrphan g1.known_ids x := by
  intro os
  induction os with
  | nil =>
    intro g g1 hso h
    rw [runList_nil] at h
    injection Option.some.inj h with _ hb
    rw [← hb]
    exact hso
  | cons o os ih =>
    intro g g1 hso h
    rcases runList_inv_cons step g o os (none, g1) h with ⟨e, g2, hs, hr⟩ | ⟨g2, hs, hrest⟩
    · injection hr with ha _
      exact Option.noConfusion ha
    · exact ih g2 g1 (hQ g o g2 hso hs) hrest

theorem runList_selfOrphan_abort (step : Genealogy → Nat → Option (Option VirusError × Genealogy))
    (x : Nat)
    (hP : ∀ g r, SelfOrphan g.known_ids x → step g x = some r → r.1 ≠ none)
    (hQ : ∀ g y g1, SelfOrphan g.known_ids x → step g y = some (none, g1) →
      SelfOrphan g1.known_ids x) :
    ∀ os g g1, SelfOrphan g.known_ids x → x ∈ os →
      runList step g os ≠ some (none, g1) := by
  intro os
  induction os with
  | nil =>
    intro g g1 _ hmem
    cases hmem
  | cons o os ih =>
    intro g g1 hso hmem hrun
    rcases runList_inv_cons step g o os (none, g1) hrun with ⟨e, g2, hs, hr⟩ | ⟨g2, hs, hrest⟩
    · injection hr with ha _
      exact Option.noConfusion ha
    · by_cases hox : o = x
      · subst hox
        exact hP g (none, g2) hso hs rfl
      · have hmem2 : x ∈ os := by
          rcases List.mem_cons.1 hmem with h | h
          · exact absurd h.symm hox
          · exact h
        exact ih g2 g1 (hQ g o g2 hso hs) hmem2 hrest

theorem runList_intinv (step : Genealogy → Nat → Option (Option VirusError × Genealogy))
    (Z : List Nat)
    (hA : ∀ g o g1, IntInv Z g.known_ids → o ∉ Z → step g o = some (none, g1) →
      IntInv Z g1.known_ids)
    (hP : ∀ g o r, SelfOrphan g.known_ids o → step g o = some r → r.1 ≠ none)
    (hQ : ∀ g y o g1, SelfOrphan g.known_ids o → step g y = some (none, g1) →
      SelfOrphan g1.known_ids o) :
    ∀ os g g1, IntInv Z g.known_ids → (∀ o ∈ os, o ∉ Z ∨ SelfOrphan g.known_ids o) →
      runList step g os = some (none, g1) → IntInv Z g1.known_ids := by
  intro os
  induction os with
  | nil =>
    intro g g1 hinv _ h
    rw [runList_nil] at h
    injection Option.some.inj h with _ hb
    rw [← hb]
    exact hinv
  | cons o os ih =>
    intro g g1 hinv hos h
    rcases runList_inv_cons step g o os (none, g1) h with ⟨e, g2, hs, hr⟩ | ⟨g2, hs, hrest⟩
    · injection hr with ha _
      exact Option.noConfusion ha
    · rcases hos o (List.mem_cons_self _ _) with hoZ | hso
      · refine ih g2 g1 (hA g o g2 hinv hoZ hs) ?_ hrest
        intro q hq
        rcases hos q (List.mem_cons_of_mem _ hq) with h | h
        · exact Or.inl h
        · exact Or.inr (hQ g o q g2 h hs)
      · exact absurd rfl (hP g o (none, g2) hso hs)

/-! ## The stem is never erased -/

/-- The stem id is unchanged and its registration is preserved. -/
def StemPres (g g1 : Genealogy) : Prop :=
  g1.stem_id = g.stem_id ∧
  (containsId g.known_ids g.stem_id = true → containsId g1.known_ids g1.stem_id = true)

theorem stemPres_refl (g : Genealogy) : StemPres g g := ⟨rfl, fun h => h⟩

theorem stemPres_trans (a b c : Genealogy) (h1 : StemPres a b) (h2 : StemPres b c) :
    StemPres a c := by
  refine ⟨h2.1.trans h1.1, fun h => ?_⟩
  exact h2.2 (h1.2 h)

theorem removeFuel_stemPres : ∀ f g i r, removeFuel f g i = some r → StemPres g r.2 := by
  intro f
  induction f with
  | zero =>
    intro g i r h
    exact Option.noConfusion h
  | succ f ih =>
    intro g i r h
    rw [removeFuel_succ] at h
    rcases removeFuelAux_cases _ g i r h with ⟨h1, hr⟩ | ⟨h1, h2, hr⟩ | ⟨h1, h2, hrest⟩
    · rw [hr]
      exact stemPres_refl g
    · rw [hr]
      exact stemPres_refl g
    · have hTrace : StemPres g ⟨g.stem_id, (remove_my_trace g.known_ids i).2⟩ := by
        refine ⟨rfl, fun hc => ?_⟩
        show containsId (remove_my_trace g.known_ids i).2 g.stem_id = true
        rw [trace_containsId]
        exact hc
      rcases hrest with ⟨e, g1, hrun, hr⟩ | ⟨g1, hrun, hr⟩
      · rw [hr]
        exact stemPres_trans _ _ _ hTrace
          (runList_pres (removeFuel f) StemPres stemPres_refl stemPres_trans
            (fun g o r h => ih g o r h) _ _ ((some e, g1)) hrun)
      · have hmid : StemPres g g1 :=
          stemPres_trans _ _ _ hTrace
            (runList_pres (removeFuel f) StemPres stemPres_refl stemPres_trans
              (fun g o r h => ih g o r h) _ _ ((none, g1)) hrun)
        rw [hr]
        refine ⟨hmid.1, fun hc => ?_⟩
        show containsId (regErase g1.known_ids i) g1.stem_id = true
        rw [containsId_erase, if_neg ?_]
        · exact hmid.2 hc
        · intro hh
          exact h1 (by rw [← hh, hmid.1])

/-! ## Master lemma: a successful remove preserves consistency, aborts on the
self-orphan shape, and erases its target -/

theorem removeFuel_main : ∀ f : Nat,
    (∀ g x r, SelfOrphan g.known_ids x → removeFuel f g x = some r → r.1 ≠ none) ∧
    (∀ g y x g1, SelfOrphan g.known_ids x → removeFuel f g y = some (none, g1) →
      SelfOrphan g1.known_ids x) ∧
    (∀ Z g x g1, IntInv Z g.known_ids → x ∉ Z → removeFuel f g x = some (none, g1) →
      IntInv Z g1.known_ids ∧ containsId g1.known_ids x = false) := by
  intro f
  induction f with
  | zero =>
    refine ⟨?_, ?_, ?_⟩
    · intro g x r _ h
      exact Option.noConfusion h
    · intro g y x g1 _ h
      exact Option.noConfusion h
    · intro Z g x g1 _ _ h
      exact Option.noConfusion h
  | succ f ih =>
    obtain ⟨ihP, ihQ, ihA⟩ := ih
    have hP : ∀ g x r, SelfOrphan g.known_ids x → removeFuel (f + 1) g x = some r →
        r.1 ≠ none := by
      intro g x r hso h hnone
      rw [removeFuel_succ] at h
      rcases removeFuelAux_cases _ g x r h with ⟨h1, hr⟩ | ⟨h1, h2, hr⟩ | ⟨h1, h2, hrest⟩
      · rw [hr] at hnone
        exact Option.noConfusion hnone
      · rw [hr] at hnone
        exact Option.noConfusion hnone
      · rcases hrest with ⟨e, g1, hrun, hr⟩ | ⟨g1, hrun, hr⟩
        · rw [hr] at hnone
          exact Option.noConfusion hnone
        · have hts := trace_selfOrphan_self g.known_ids x hso
          exact runList_selfOrphan_abort (removeFuel f) x
            (fun g r hso2 hs => ihP g x r hso2 hs)
            (fun g y g1 hso2 hs => ihQ g y x g1 hso2 hs)
            (remove_my_trace g.known_ids x).1
            ⟨g.stem_id, (remove_my_trace g.known_ids x).2⟩ g1 hts.2 hts.1 hrun
    have hQ : ∀ g y x g1, SelfOrphan g.known_ids x → removeFuel (f + 1) g y = some (none, g1) →
        SelfOrphan g1.known_ids x := by
      intro g y x g1 hso h
      by_cases hyx : y = x
      · subst hyx
        exact absurd rfl (hP g y (none, g1) hso h)
      · rw [removeFuel_succ] at h
        rcases removeFuelAux_cases _ g y (none, g1) h with ⟨h1, hr⟩ | ⟨h1, h2, hr⟩ | ⟨h1, h2, hrest⟩
        · injection hr with ha _
          exact Option.noConfusion ha
        · injection hr with ha _
          exact Option.noConfusion ha
        · rcases hrest with ⟨e, g2, hrun, hr⟩ | ⟨g2, hrun, hr⟩
          · injection hr with ha _
            exact Option.noConfusion ha
          · injection hr with _ hb
            rw [hb]
            have hso2 : SelfOrphan (remove_my_trace g.known_ids y).2 x :=
              trace_selfOrphan_other g.known_ids y x hso hyx
            have hso3 : SelfOrphan g2.known_ids x :=
              runList_selfOrphan_keep (removeFuel f) x
                (fun g y2 g3 a b => ihQ g y2 x g3 a b)
                (remove_my_trace g.known_ids y).1
                ⟨g.stem_id, (remove_my_trace g.known_ids y).2⟩ g2 hso2 hrun
            exact selfOrphan_erase g2.known_ids y x hso3 hyx
    have hA : ∀ Z g x g1, IntInv Z g.known_ids → x ∉ Z →
        removeFuel (f + 1) g x = some (none, g1) →
        IntInv Z g1.known_ids ∧ containsId g1.known_ids x = false := by
      intro Z g x g1 hinv hxZ h
      rw [removeFuel_succ] at h
      rcases removeFuelAux_cases _ g x (none, g1) h with ⟨h1, hr⟩ | ⟨h1, h2, hr⟩ | ⟨h1, h2, hrest⟩
      · injection hr with ha _
        exact Option.noConfusion ha
      · injection hr with ha _
        exact Option.noConfusion ha
      · rcases hrest with ⟨e, g2, hrun, hr⟩ | ⟨g2, hrun, hr⟩
        · injection hr with ha _
          exact Option.noConfusion ha
        · injection hr with _ hb
          have hcx : containsId g.known_ids x = true := h2
          have hinv2 : IntInv (x :: Z) (remove_my_trace g.known_ids x).2 :=
            trace_main_inv Z g.known_ids x hinv hxZ hcx
          have hos : ∀ o ∈ (remove_my_trace g.known_ids x).1,
              o ∉ (x :: Z) ∨ SelfOrphan (remove_my_trace g.known_ids x).2 o := by
            intro o ho
            by_cases hox : o = x
            · subst hox
              have hemp : parentsOf (remove_my_trace g.known_ids o).2 o = [] :=
                trace_orphans_empty _ o o ho
              have htps : tracePs g.known_ids o = [] := by
                unfold tracePs
                rw [← trace_parentsOf]
                exact hemp
              refine Or.inr ⟨hemp, ?_, ?_⟩
              · rw [trace_childrenOf _ o o hcx, htps]
                simpa [repeatErase] using trace_orphans_sub _ o o ho
              · rw [trace_containsId]
                exact hcx
            · left
              apply notMem_cons_build hox
              intro hoZ
              have h0 := (hinv.2.1 o hoZ x hxZ).2
              rw [List.count_eq_zero] at h0
              exact h0 (trace_orphans_sub _ x o ho)
          have hfin : IntInv (x :: Z) g2.known_ids :=
            runList_intinv (removeFuel f) (x :: Z)
              (fun g3 o g4 hi ho hs => (ihA (x :: Z) g3 o g4 hi ho hs).1)
              (fun g3 o r hso hs => ihP g3 o r hso hs)
              (fun g3 y o g4 hso hs => ihQ g3 y o g4 hso hs)
              (remove_my_trace g.known_ids x).1
              ⟨g.stem_id, (remove_my_trace g.known_ids x).2⟩ g2 hinv2 hos hrun
          rw [hb]
          constructor
          · exact intinv_erase Z g2.known_ids x hfin hxZ
          · show containsId (regErase g2.known_ids x) x = false
            rw [containsId_erase, if_pos rfl]
    exact ⟨hP, hQ, hA⟩

/-! ## Edge consistency under the constructor, create, and connect -/

theorem edgeCon_mk (s : Nat) : EdgeCon (mkGenealogy s).known_ids := by
  intro c p
  show (parentsOf [(s, ⟨s, [], []⟩)] c).count p = (childrenOf [(s, ⟨s, [], []⟩)] p).count c
  unfold parentsOf childrenOf
  rw [regFind_cons, regFind_cons]
  by_cases hc : c = s <;> by_cases hp : p = s <;> simp [hc, hp, regFind_nil]

theorem edgeCon_addEdge (m : Registry) (c p : Nat) (h : EdgeCon m)
    (hc : containsId m c = true) (hp : containsId m p = true) :
    EdgeCon (addEdge m c p) := by
  intro a b
  rw [parentsOf_addEdge m c p a hc, childrenOf_addEdge m c p b hp]
  by_cases hac : a = c
  · subst hac
    by_cases hbp : b = p
    · subst hbp
      rw [if_pos rfl, if_pos rfl]
      simp [List.count_append, h a b]
    · rw [if_pos rfl, if_neg hbp]
      have : (List.count b [p]) = 0 := by simp [List.count_singleton, Ne.symm hbp]
      rw [List.count_append, this, Nat.add_zero]
      exact h a b
  · by_cases hbp : b = p
    · subst hbp
      rw [if_neg hac, if_pos rfl]
      have : (List.count a [c]) = 0 := by simp [List.count_singleton, Ne.symm hac]
      rw [List.count_append, this, Nat.add_zero]
      exact h a b
    · rw [if_neg hac, if_neg hbp]
      exact h a b

theorem edgeCon_insert_fresh (m : Registry) (i : Nat) (h : EdgeCon m)
    (hi : containsId m i = false) :
    EdgeCon (regInsert m i ⟨i, [], []⟩) := by
  intro a b
  rw [parentsOf_insert_fresh m i a _ hi, childrenOf_insert_fresh m i b _ hi]
  by_cases hai : a = i
  · rw [if_pos hai]
    by_cases hbi : b = i
    · rw [if_pos hbi]
      simp
    · rw [if_neg hbi]
      have h0 : (parentsOf m a).count b = (childrenOf m b).count a := h a b
      rw [hai, parentsOf_eq_nil_of_notContains m i hi] at h0
      rw [hai]
      simp only [List.count_nil] at h0 ⊢
      exact h0
  · rw [if_neg hai]
    by_cases hbi : b = i
    · rw [if_pos hbi]
      have h0 : (parentsOf m a).count b = (childrenOf m b).count a := h a b
      rw [hbi, childrenOf_eq_nil_of_notContains m i hi] at h0
      rw [hbi]
      simp only [List.count_nil] at h0 ⊢
      exact h0
    · rw [if_neg hbi]
      exact h a b

theorem existsAll_forall (g : Genealogy) (ps : List Nat) :
    existsAll g ps = true ↔ ∀ p ∈ ps, existsId g p = true := by
  induction ps with
  | nil =>
    constructor
    · intro _ q hq
      cases hq
    · intro _
      rfl
  | cons p ps ih =>
    unfold existsAll
    by_cases hp : existsId g p = false
    · rw [if_pos hp]
      constructor
      · intro hh
        exact Bool.noConfusion hh
      · intro hall
        rw [hall p (List.mem_cons_self _ _)] at hp
        exact Bool.noConfusion hp
    · rw [if_neg hp]
      rw [ih]
      constructor
      · intro hall q hq
        rcases List.mem_cons.1 hq with h | h
        · subst h
          simpa using hp
        · exact hall q h
      · intro hall q hq
        exact hall q (List.mem_cons_of_mem _ hq)

theorem foldAdd_containsId (c : Nat) (ps : List Nat) (m : Registry) (y : Nat) :
    containsId (ps.foldl (fun mm p => addEdge mm c p) m) y = containsId m y := by
  induction ps generalizing m with
  | nil => rfl
  | cons p ps ih =>
    rw [List.foldl_cons, ih, containsId_addEdge]

theorem foldAdd_parentsOf_self (c : Nat) (ps : List Nat) (m : Registry)
    (hc : containsId m c = true) :
    parentsOf (ps.foldl (fun mm p => addEdge mm c p) m) c = parentsOf m c ++ ps := by
  induction ps generalizing m with
  | nil => simp
  | cons p ps ih =>
    rw [List.foldl_cons, ih (addEdge m c p) (by rw [containsId_addEdge]; exact hc),
      parentsOf_addEdge m c p c hc, if_pos rfl, List.append_assoc]
    rfl

theorem foldAdd_parentsOf_other (c : Nat) (ps : List Nat) (m : Registry) (y : Nat)
    (hc : containsId m c = true) (hy : y ≠ c) :
    parentsOf (ps.foldl (fun mm p => addEdge mm c p) m) y = parentsOf m y := by
  induction ps generalizing m with
  | nil => rfl
  | cons p ps ih =>
    rw [List.foldl_cons, ih (addEdge m c p) (by rw [containsId_addEdge]; exact hc),
      parentsOf_addEdge m c p y hc, if_neg hy]

theorem foldAdd_childrenOf (c : Nat) (ps : List Nat) (m : Registry) (y : Nat)
    (hps : ∀ p ∈ ps, containsId m p = true) :
    childrenOf (ps.foldl (fun mm p => addEdge mm c p) m) y =
      childrenOf m y ++ List.replicate (ps.count y) c := by
  induction ps generalizing m with
  | nil => simp
  | cons p ps ih =>
    have hp : containsId m p = true := hps p (List.mem_cons_self _ _)
    have hps2 : ∀ q ∈ ps, containsId (addEdge m c p) q = true := by
      intro q hq
      rw [containsId_addEdge]
      exact hps q (List.mem_cons_of_mem _ hq)
    rw [List.foldl_cons, ih (addEdge m c p) hps2, childrenOf_addEdge m c p y hp]
    by_cases hyp : y = p
    · subst hyp
      rw [if_pos rfl, List.count_cons_self, List.append_assoc]
      congr 1
    · rw [if_neg hyp, List.count_cons_of_ne (by simpa using hyp)]

theorem foldAdd_edgeCon (c : Nat) (ps : List Nat) (m : Registry) (h : EdgeCon m)
    (hc : containsId m c = true) (hps : ∀ p ∈ ps, containsId m p = true) :
    EdgeCon (ps.foldl (fun mm p => addEdge mm c p) m) := by
  induction ps generalizing m with
  | nil => exact h
  | cons p ps ih =>
    have hp : containsId m p = true := hps p (List.mem_cons_self _ _)
    rw [List.foldl_cons]
    refine ih (addEdge m c p) (edgeCon_addEdge m c p h hc hp) ?_ ?_
    · rw [containsId_addEdge]
      exact hc
    · intro q hq
      rw [containsId_addEdge]
      exact hps q (List.mem_cons_of_mem _ hq)

theorem edgeCon_create (vOk : Nat → Bool) (g : Genealogy) (i p : Nat)
    (h : EdgeCon g.known_ids) : EdgeCon (create vOk g i p).2.known_ids := by
  unfold create
  by_cases h1 : existsId g i
  · rw [if_pos h1]
    exact h
  · rw [if_neg h1]
    by_cases h2 : existsId g p = false
    · rw [if_pos h2]
      exact h
    · rw [if_neg h2]
      by_cases h3 : vOk i = false
      · rw [if_pos h3]
        show EdgeCon (regErase g.known_ids i)
        rw [regErase_of_notContains g.known_ids i (by simpa using h1)]
        exact h
      · rw [if_neg h3]
        show EdgeCon (addEdge (regInsert g.known_ids i ⟨i, [], []⟩) i p)
        have hi : containsId g.known_ids i = false := by simpa using h1
        have hp : containsId g.known_ids p = true := by simpa using h2
        refine edgeCon_addEdge _ i p (edgeCon_insert_fresh _ i h hi) ?_ ?_
        · rw [containsId_insert_fresh _ i _ i hi, if_pos rfl]
        · rw [containsId_insert_fresh _ i _ p hi]
          by_cases hpi : p = i
          · rw [if_pos hpi]
          · rw [if_neg hpi]
            exact hp

theorem edgeCon_create_many (vOk : Nat → Bool) (g : Genealogy) (i : Nat) (ps : List Nat)
    (h : EdgeCon g.known_ids) : EdgeCon (create_many vOk g i ps).2.known_ids := by
  unfold create_many
  by_cases h1 : existsId g i
  · rw [if_pos h1]
    exact h
  · rw [if_neg h1]
    by_cases h2 : existsAll g ps = false
    · rw [if_pos h2]
      exact h
    · rw [if_neg h2]
      by_cases h4 : ps = []
      · rw [if_pos h4]
        exact h
      · rw [if_neg h4]
        by_cases h3 : vOk i = false
        · rw [if_pos h3]
          show EdgeCon (regErase g.known_ids i)
          rw [regErase_of_notContains g.known_ids i (by simpa using h1)]
          exact h
        · rw [if_neg h3]
          show EdgeCon (ps.foldl (fun mm p => addEdge mm i p)
            (regInsert g.known_ids i ⟨i, [], []⟩))
          have hi : containsId g.known_ids i = false := by simpa using h1
          have hall : ∀ p ∈ ps, existsId g p = true :=
            (existsAll_forall g ps).1 (by simpa using h2)
          refine foldAdd_edgeCon i ps _ (edgeCon_insert_fresh _ i h hi) ?_ ?_
          · rw [containsId_insert_fresh _ i _ i hi, if_pos rfl]
          · intro q hq
            rw [containsId_insert_fresh _ i _ q hi]
            by_cases hqi : q = i
            · rw [if_pos hqi]
            · rw [if_neg hqi]
              exact hall q hq

theorem edgeCon_connect (g : Genealogy) (c p : Nat) (h : EdgeCon g.known_ids) :
    EdgeCon (connect g c p).2.known_ids := by
  unfold connect
  by_cases h1 : (!existsId g c || !existsId g p) = true
  · rw [if_pos h1]
    exact h
  · rw [if_neg h1]
    simp only [Bool.or_eq_true, Bool.not_eq_true', not_or, Bool.not_eq_false] at h1
    by_cases h2 : p ∈ parentsOf g.known_ids c
    · rw [if_pos h2]
      exact h
    · rw [if_neg h2]
      show EdgeCon (addEdge g.known_ids c p)
      exact edgeCon_addEdge _ c p h h1.1 h1.2

/-! ## Stem preservation for the remaining operations and reachability -/

theorem create_stemPres (vOk : Nat → Bool) (g : Genealogy) (i p : Nat) :
    StemPres g (create vOk g i p).2 := by
  unfold create
  by_cases h1 : existsId g i
  · rw [if_pos h1]
    exact stemPres_refl g
  · rw [if_neg h1]
    by_cases h2 : existsId g p = false
    · rw [if_pos h2]
      exact stemPres_refl g
    · rw [if_neg h2]
      by_cases h3 : vOk i = false
      · rw [if_pos h3]
        refine ⟨rfl, fun hc => ?_⟩
        show containsId (regErase g.known_ids i) g.stem_id = true
        rw [containsId_erase, if_neg ?_]
        · exact hc
        · intro hh
          rw [← hh] at h1
          exact h1 hc
      · rw [if_neg h3]
        refine ⟨rfl, fun hc => ?_⟩
        show containsId (addEdge (regInsert g.known_ids i ⟨i, [], []⟩) i p) g.stem_id = true
        rw [containsId_addEdge, containsId_insert_fresh _ i _ _ (by simpa using h1)]
        by_cases hsi : g.stem_id = i
        · rw [if_pos hsi]
        · rw [if_neg hsi]
          exact hc

theorem create_many_stemPres (vOk : Nat → Bool) (g : Genealogy) (i : Nat) (ps : List Nat) :
    StemPres g (create_many vOk g i ps).2 := by
  unfold create_many
  by_cases h1 : existsId g i
  · rw [if_pos h1]
    exact stemPres_refl g
  · rw [if_neg h1]
    by_cases h2 : existsAll g ps = false
    · rw [if_pos h2]
      exact stemPres_refl g
    · rw [if_neg h2]
      by_cases h4 : ps = []
      · rw [if_pos h4]
        exact stemPres_refl g
      · rw [if_neg h4]
        by_cases h3 : vOk i = false
        · rw [if_pos h3]
          refine ⟨rfl, fun hc => ?_⟩
          show containsId (regErase g.known_ids i) g.stem_id = true
          rw [containsId_erase, if_neg ?_]
          · exact hc
          · intro hh
            rw [← hh] at h1
            exact h1 hc
        · rw [if_neg h3]
          refine ⟨rfl, fun hc => ?_⟩
          show containsId (ps.foldl (fun mm p => addEdge mm i p)
            (regInsert g.known_ids i ⟨i, [], []⟩)) g.stem_id = true
          rw [foldAdd_containsId, containsId_insert_fresh _ i _ _ (by simpa using h1)]
          by_cases hsi : g.stem_id = i
          · rw [if_pos hsi]
          · rw [if_neg hsi]
            exact hc

theorem connect_stemPres (g : Genealogy) (c p : Nat) : StemPres g (connect g c p).2 := by
  unfold connect
  by_cases h1 : (!existsId g c || !existsId g p) = true
  · rw [if_pos h1]
    exact stemPres_refl g
  · rw [if_neg h1]
    by_cases h2 : p ∈ parentsOf g.known_ids c
    · rw [if_pos h2]
      exact stemPres_refl g
    · rw [if_neg h2]
      refine ⟨rfl, fun hc => ?_⟩
      show containsId (addEdge g.known_ids c p) g.stem_id = true
      rw [containsId_addEdge]
      exact hc

theorem reachable_stem (g : Genealogy) (h : Reachable g) :
    containsId g.known_ids g.stem_id = true := by
  induction h with
  | init s =>
    show containsId [(s, ⟨s, [], []⟩)] s = true
    unfold containsId
    rw [regFind_cons, if_pos rfl]
    rfl
  | step_create g vOk i p _ ih => exact (create_stemPres vOk g i p).2 ih
  | step_create_many g vOk i ps _ ih => exact (create_many_stemPres vOk g i ps).2 ih
  | step_connect g c p _ ih => exact (connect_stemPres g c p).2 ih
  | step_remove g i f e g1 _ hrm ih => exact (removeFuel_stemPres f g i (e, g1) hrm).2 ih

/-! ## Decidable consistency check implies EdgeCon -/

theorem regFind_mem (m : Registry) (i : Nat) (n : Node) (h : regFind m i = some n) :
    (i, n) ∈ m := by
  induction m with
  | nil => cases h
  | cons e r ih =>
    obtain ⟨k, q⟩ := e
    rw [regFind_cons] at h
    by_cases hk : i = k
    · rw [if_pos hk] at h
      rw [hk, Option.some.inj h]
      exact List.mem_cons_self _ _
    · rw [if_neg hk] at h
      exact List.mem_cons_of_mem _ (ih h)

theorem conB_edgeCon (m : Registry) (h : ConB m = true) : EdgeCon m := by
  unfold ConB at h
  rw [Bool.and_eq_true] at h
  obtain ⟨href, hpair⟩ := h
  rw [List.all_eq_true] at href hpair
  intro c p
  cases hc : regFind m c with
  | none =>
    have hpnil : parentsOf m c = [] := by
      unfold parentsOf
      rw [hc]
      rfl
    have hcfalse : containsId m c = false := by
      unfold containsId
      rw [hc]
      rfl
    rw [hpnil]
    simp only [List.count_nil]
    cases hp : regFind m p with
    | none =>
      have : childrenOf m p = [] := by
        unfold childrenOf
        rw [hp]
        rfl
      rw [this]
      rfl
    | some np =>
      have h1 := href (p, np) (regFind_mem m p np hp)
      rw [Bool.and_eq_true] at h1
      obtain ⟨h1a, h1b⟩ := h1
      rw [List.all_eq_true] at h1b
      symm
      rw [List.count_eq_zero]
      intro hcm
      have hchild : childrenOf m p = np.children := by
        unfold childrenOf
        rw [hp]
        rfl
      rw [hchild] at hcm
      have := h1b c hcm
      rw [hcfalse] at this
      exact Bool.noConfusion this
  | some nc =>
    have hpar : parentsOf m c = nc.parents := by
      unfold parentsOf
      rw [hc]
      rfl
    cases hp : regFind m p with
    | none =>
      have hcnil : childrenOf m p = [] := by
        unfold childrenOf
        rw [hp]
        rfl
      have hpfalse : containsId m p = false := by
        unfold containsId
        rw [hp]
        rfl
      rw [hcnil]
      simp only [List.count_nil]
      rw [List.count_eq_zero, hpar]
      intro hpm
      have h1 := href (c, nc) (regFind_mem m c nc hc)
      rw [Bool.and_eq_true] at h1
      obtain ⟨h1a, h1b⟩ := h1
      rw [List.all_eq_true] at h1a
      have := h1a p hpm
      rw [hpfalse] at this
      exact Bool.noConfusion this
    | some np =>
      have hchild : childrenOf m p = np.children := by
        unfold childrenOf
        rw [hp]
        rfl
      have h2 := hpair (c, nc) (regFind_mem m c nc hc)
      rw [List.all_eq_true] at h2
      have h3 := h2 (p, np) (regFind_mem m p np hp)
      rw [beq_iff_eq] at h3
      rw [hpar, hchild]
      exact h3

/-! ## Auxiliary facts for the claims -/

theorem edgeCon_intinv_nil (m : Registry) : IntInv [] m ↔ EdgeCon m := by
  constructor
  · intro h c p
    exact h.1 c p (List.not_mem_nil c) (List.not_mem_nil p)
  · intro h
    exact ⟨fun c p _ _ => h c p,
      fun z hz => absurd hz (List.not_mem_nil z),
      fun z hz => absurd hz (List.not_mem_nil z)⟩

theorem edgeCon_child_registered (m : Registry) (h : EdgeCon m) (i c : Nat)
    (hc : c ∈ childrenOf m i) : containsId m c = true := by
  have h0 := h c i
  have hpos : 0 < (childrenOf m i).count c := List.count_pos_iff.2 hc
  rw [← h0] at hpos
  cases hcc : regFind m c with
  | none =>
    have hnil : parentsOf m c = [] := by
      unfold parentsOf
      rw [hcc]
      rfl
    rw [hnil] at hpos
    simp at hpos
  | some n =>
    unfold containsId
    rw [hcc]
    rfl

/-- S = 0, A = 1, B = 2 with parents_of B = [A, S] (the multi-parent retention
scenario of the spec). -/
def retainGraph : Genealogy :=
  (connect ((create_many vOkTrue ((create vOkTrue (mkGenealogy 0) 1 0).2) 2 [1]).2) 2 0).2

def retainResult : Option VirusError × Genealogy :=
  (remove retainGraph 1).getD (some .VirusNotFound, retainGraph)

/-- The chain 0 -> 1 -> 2 -> 3 (each later id created from the previous one). -/
def chainGraph : Genealogy :=
  (create vOkTrue ((create vOkTrue ((create vOkTrue (mkGenealogy 0) 1 0).2) 2 1).2) 3 2).2

def chainResult : Option VirusError × Genealogy :=
  (remove chainGraph 1).getD (some .VirusNotFound, chainGraph)

/-- S = 0, A = 1 where `connect(0, 1)` has made A a parent of the stem:
a caller-introduced cycle through the root. -/
def cycleGraph : Genealogy :=
  (connect ((create vOkTrue (mkGenealogy 0) 1 0).2) 0 1).2

def cycleResult : Option VirusError × Genealogy :=
  (remove cycleGraph 1).getD (none, cycleGraph)

/-- Claim C1: for a registered non-root id, a completed `remove(id)` erases the
registry entry of `id` and detaches `id` from every parent's child list and
every child's parent list; the cascade is transitive, and a descendant that
retains another parent survives.  Stated as: a successful `remove` from any
edge-consistent state leaves `id` unregistered and absent from every parent
and child list, together with the two concrete scenarios (multi-parent
retention and a two-level transitive cascade). -/
theorem claim_C1_remove_cascade :
    (∀ (f : Nat) (g : Genealogy) (x : Nat) (g1 : Genealogy),
      EdgeCon g.known_ids → removeFuel f g x = some (none, g1) →
      existsId g1 x = false ∧
      ∀ y, (parentsOf g1.known_ids y).count x = 0 ∧
        (childrenOf g1.known_ids y).count x = 0) ∧
    ((remove retainGraph 1).isSome = true ∧ retainResult.1 = none ∧
      existsId retainResult.2 2 = true ∧ existsId retainResult.2 1 = false ∧
      existsId retainResult.2 0 = true ∧ parentsOf retainResult.2.known_ids 2 = [0]) ∧
    ((remove chainGraph 1).isSome = true ∧ chainResult.1 = none ∧
      existsId chainResult.2 1 = false ∧ existsId chainResult.2 2 = false ∧
      existsId chainResult.2 3 = false ∧ existsId chainResult.2 0 = true) := by
  refine ⟨?_, by decide, by decide⟩
  intro f g x g1 hcon hrun
  have hmain := (removeFuel_main f).2.2 [] g x g1 ((edgeCon_intinv_nil g.known_ids).2 hcon)
    (List.not_mem_nil x) hrun
  obtain ⟨hinv, hnc⟩ := hmain
  have hcon1 : EdgeCon g1.known_ids := (edgeCon_intinv_nil g1.known_ids).1 hinv
  refine ⟨hnc, fun y => ?_⟩
  constructor
  · rw [hcon1 y x, childrenOf_eq_nil_of_notContains g1.known_ids x hnc]
    rfl
  · rw [← hcon1 x y, parentsOf_eq_nil_of_notContains g1.known_ids x hnc]
    rfl

theorem claim_C1_witness :
    existsId retainResult.2 1 = false ∧
    (parentsOf retainResult.2.known_ids 0).count 1 = 0 := by
  have h := (claim_C1_remove_cascade.1 4 retainGraph 1 retainResult.2
    (conB_edgeCon retainGraph.known_ids (by decide)) (by decide))
  exact ⟨h.1, (h.2 0).1⟩

/-- Claim C2: in every reachable state the root exists, and `remove(root_id)`
always fails with `TriedToRemoveStemVirus` returning the state unchanged. -/
theorem claim_C2_root_permanent (g : Genealogy) (h : Reachable g) :
    existsId g g.stem_id = true ∧
    remove g g.stem_id = some (some .TriedToRemoveStemVirus, g) := by
  refine ⟨reachable_stem g h, ?_⟩
  show removeFuel (g.known_ids.length + 1) g g.stem_id = _
  rw [removeFuel_succ]
  unfold removeFuelAux
  rw [if_pos rfl]

theorem claim_C2_witness :
    existsId (mkGenealogy 7) 7 = true ∧
    remove (mkGenealogy 7) 7 = some (some .TriedToRemoveStemVirus, mkGenealogy 7) :=
  claim_C2_root_permanent (mkGenealogy 7) (Reachable.init 7)

/-- Claim C3 counterexample: after the caller introduces a cycle through the
root (`connect(0, 1)` on top of `create(1, 0)`), `remove(1)` fails with
`TriedToRemoveStemVirus` raised from inside its cascade, and the observable
state after the failing call differs from the state before it: through the
public interface, `parents_of(0)` was `[1]` before the call and is `[]` after
it, while `exists(1)` is still true — so the failing mutating operation did
not leave the graph as it was. -/
theorem claim_C3_counterexample :
    (remove cycleGraph 1).isSome = true ∧
    cycleResult.1 = some .TriedToRemoveStemVirus ∧
    get_parents cycleGraph 0 = .ok [1] ∧
    get_parents cycleResult.2 0 = .ok [] ∧
    existsId cycleResult.2 1 = true ∧
    cycleResult.2 ≠ cycleGraph :=
  ⟨by decide, by decide, rfl, rfl, by decide, by decide⟩

/-- Claim C3 (amended): every `create`, `create_many` and `connect` failure,
and every `remove` failure raised by the up-front checks (root target or
unregistered id), leaves the graph exactly as it was — in particular a
payload-construction failure leaves the new id unregistered with no edges
added; only a `remove` that fails from inside its cascade (possible only
after a cycle through the root was introduced) can leave a changed state. -/
theorem claim_C3_amended :
    (∀ vOk g (i p : Nat), existsId g i = true →
      create vOk g i p = (some .VirusAlreadyCreated, g)) ∧
    (∀ vOk g (i p : Nat), existsId g i = false → existsId g p = false →
      create vOk g i p = (some .VirusNotFound, g)) ∧
    (∀ vOk g (i p : Nat), existsId g i = false → existsId g p = true → vOk i = false →
      create vOk g i p = (some .PayloadFailure, g)) ∧
    (∀ vOk g (i : Nat) ps, existsId g i = true →
      create_many vOk g i ps = (some .VirusAlreadyCreated, g)) ∧
    (∀ vOk g (i : Nat) ps, existsId g i = false → existsAll g ps = false →
      create_many vOk g i ps = (some .VirusNotFound, g)) ∧
    (∀ vOk g (i : Nat) ps, existsId g i = false → existsAll g ps = true → ps ≠ [] →
      vOk i = false → create_many vOk g i ps = (some .PayloadFailure, g)) ∧
    (∀ g (c p : Nat), existsId g c = false ∨ existsId g p = false →
      connect g c p = (some .VirusNotFound, g)) ∧
    (∀ (f : Nat) g, removeFuel (f + 1) g g.stem_id =
      some (some .TriedToRemoveStemVirus, g)) ∧
    (∀ (f : Nat) g (i : Nat), i ≠ g.stem_id → existsId g i = false →
      removeFuel (f + 1) g i = some (some .VirusNotFound, g)) := by
  refine ⟨?_, ?_, ?_, ?_, ?_, ?_, ?_, ?_, ?_⟩
  · intro vOk g i p h1
    unfold create
    rw [if_pos h1]
  · intro vOk g i p h1 h2
    unfold create
    rw [if_neg (by rw [h1]; exact Bool.noConfusion), if_pos h2]
  · intro vOk g i p h1 h2 h3
    unfold create
    rw [if_neg (by rw [h1]; exact Bool.noConfusion),
      if_neg (by rw [h2]; exact Bool.noConfusion), if_pos h3,
      regErase_of_notContains g.known_ids i h1]
  · intro vOk g i ps h1
    unfold create_many
    rw [if_pos h1]
  · intro vOk g i ps h1 h2
    unfold create_many
    rw [if_neg (by rw [h1]; exact Bool.noConfusion), if_pos h2]
  · intro vOk g i ps h1 h2 h4 h3
    unfold create_many
    rw [if_neg (by rw [h1]; exact Bool.noConfusion),
      if_neg (by rw [h2]; exact Bool.noConfusion), if_neg h4, if_pos h3,
      regErase_of_notContains g.known_ids i h1]
  · intro g c p h1
    unfold connect
    rw [if_pos ?_]
    rcases h1 with h | h <;> simp [h]
  · intro f g
    rw [removeFuel_succ]
    unfold removeFuelAux
    rw [if_pos rfl]
  · intro f g i h1 h2
    rw [removeFuel_succ]
    unfold removeFuelAux
    rw [if_neg h1, if_pos h2]

theorem claim_C3_witness :
    create vOkTrue (mkGenealogy 0) 0 0 = (some .VirusAlreadyCreated, mkGenealogy 0) ∧
    create (fun _ => false) (mkGenealogy 0) 1 0 = (some .PayloadFailure, mkGenealogy 0) ∧
    connect (mkGenealogy 0) 0 5 = (some .VirusNotFound, mkGenealogy 0) ∧
    removeFuel 3 (mkGenealogy 0) 4 = some (some .VirusNotFound, mkGenealogy 0) := by
  refine ⟨claim_C3_amended.1 vOkTrue (mkGenealogy 0) 0 0 (by decide),
    claim_C3_amended.2.2.1 (fun _ => false) (mkGenealogy 0) 1 0 (by decide) (by decide) rfl,
    claim_C3_amended.2.2.2.2.2.2.1 (mkGenealogy 0) 0 5 (Or.inr (by decide)),
    claim_C3_amended.2.2.2.2.2.2.2.2 2 (mkGenealogy 0) 4 (by decide) (by decide)⟩

/-- A two-node base graph (stem 0 with child 1) used by several witnesses. -/
def twoGraph : Genealogy := (create vOkTrue (mkGenealogy 0) 1 0).2

/-- Claim C4: multi-parent `create(id, parent_ids)` fails `VirusNotFound` (with
no state change, hence before any node is created) whenever some listed parent
is unregistered, and on success links the new node under every listed parent in
the given order without deduplication: `get_parents` then returns exactly
`parent_ids` (duplicates included, edge-insertion order, no sorting), and each
parent's child list gains one copy of `id` per occurrence. -/
theorem claim_C4_create_many :
    (∀ vOk g (i : Nat) ps, existsId g i = false → existsAll g ps = false →
      create_many vOk g i ps = (some .VirusNotFound, g) ∧ existsId g i = false) ∧
    (∀ vOk g (i : Nat) ps g1, create_many vOk g i ps = (none, g1) → ps ≠ [] →
      existsId g1 i = true ∧
      get_parents g1 i = .ok ps ∧
      (∀ p, childrenOf g1.known_ids p =
        childrenOf g.known_ids p ++ List.replicate (ps.count p) i)) := by
  constructor
  · intro vOk g i ps h1 h2
    refine ⟨?_, h1⟩
    unfold create_many
    rw [if_neg (by rw [h1]; exact Bool.noConfusion), if_pos h2]
  · intro vOk g i ps g1 hrun hne
    unfold create_many at hrun
    by_cases h1 : existsId g i
    · rw [if_pos h1] at hrun
      injection hrun with ha _
      exact Option.noConfusion ha
    · rw [if_neg h1] at hrun
      by_cases h2 : existsAll g ps = false
      · rw [if_pos h2] at hrun
        injection hrun with ha _
        exact Option.noConfusion ha
      · rw [if_neg h2] at hrun
        rw [if_neg hne] at hrun
        by_cases h3 : vOk i = false
        · rw [if_pos h3] at hrun
          injection hrun with ha _
          exact Option.noConfusion ha
        · rw [if_neg h3] at hrun
          injection hrun with _ hb
          have hi : containsId g.known_ids i = false := by simpa using h1
          have hall : ∀ p ∈ ps, existsId g p = true :=
            (existsAll_forall g ps).1 (by simpa using h2)
          have hps : ∀ p ∈ ps, containsId (regInsert g.known_ids i ⟨i, [], []⟩) p = true := by
            intro q hq
            rw [containsId_insert_fresh _ i _ q hi]
            by_cases hqi : q = i
            · rw [if_pos hqi]
            · rw [if_neg hqi]
              exact hall q hq
          have hci : containsId (regInsert g.known_ids i ⟨i, [], []⟩) i = true := by
            rw [containsId_insert_fresh _ i _ i hi, if_pos rfl]
          have hcontains : existsId g1 i = true := by
            rw [← hb]
            show containsId (ps.foldl (fun mm p => addEdge mm i p) _) i = true
            rw [foldAdd_containsId]
            exact hci
          refine ⟨hcontains, ?_, ?_⟩
          · unfold get_parents
            rw [hcontains]
            show Except.ok (parentsOf g1.known_ids i) = _
            rw [← hb]
            show Except.ok (parentsOf (ps.foldl (fun mm p => addEdge mm i p) _) i) = _
            rw [foldAdd_parentsOf_self i ps _ hci,
              parentsOf_insert_fresh g.known_ids i i _ hi, if_pos rfl]
            rfl
          · intro p
            rw [← hb]
            show childrenOf (ps.foldl (fun mm p => addEdge mm i p) _) p = _
            rw [foldAdd_childrenOf i ps _ p hps, childrenOf_insert_fresh g.known_ids i p _ hi]
            by_cases hpi : p = i
            · rw [if_pos hpi, hpi, childrenOf_eq_nil_of_notContains g.known_ids i hi]
            · rw [if_neg hpi]

theorem claim_C4_witness :
    existsId (create_many vOkTrue twoGraph 2 [0, 1, 0]).2 2 = true ∧
    get_parents (create_many vOkTrue twoGraph 2 [0, 1, 0]).2 2 = .ok [0, 1, 0] ∧
    childrenOf (create_many vOkTrue twoGraph 2 [0, 1, 0]).2.known_ids 0 =
      childrenOf twoGraph.known_ids 0 ++ [2, 2] ∧
    create_many vOkTrue twoGraph 2 [5] = (some .VirusNotFound, twoGraph) := by
  have h := claim_C4_create_many.2 vOkTrue twoGraph 2 [0, 1, 0]
    (create_many vOkTrue twoGraph 2 [0, 1, 0]).2 (by decide) (by decide)
  refine ⟨h.1, h.2.1, ?_, (claim_C4_create_many.1 vOkTrue twoGraph 2 [5]
    (by decide) (by decide)).1⟩
  rw [h.2.2 0]
  rfl

/-- Claim C5 counterexample: `create(id, [])` with `id` already registered (here
the root itself) raises `VirusAlreadyCreated`, so the call is not always a
silent no-op. -/
theorem claim_C5_counterexample :
    (create_many vOkTrue (mkGenealogy 0) 0 []).1 ≠ none := by
  decide

/-- Claim C5 (amended): `create(id, [])` never creates a node and never adds an
edge — the state is returned unchanged — and it raises no error unless `id` is
already registered, in which case it fails `VirusAlreadyCreated` (the
already-exists check precedes the empty-list check). -/
theorem claim_C5_amended (vOk : Nat → Bool) (g : Genealogy) (i : Nat) :
    create_many vOk g i [] =
      (if existsId g i then some VirusError.VirusAlreadyCreated else none, g) := by
  unfold create_many
  by_cases h1 : existsId g i
  · rw [if_pos h1, if_pos h1]
  · rw [if_neg h1, if_neg h1]
    have h2 : ¬ (existsAll g [] = false) := fun hh => Bool.noConfusion hh
    rw [if_neg h2, if_pos rfl]

/-- Claim C6: `connect` is idempotent — if `parent_id` already occurs among
`child_id`'s parents the call is a silent no-op returning the unchanged state,
otherwise the child is appended to the parent's child list and the parent to
the child's parent list; consequently connecting twice gives the same
`parents_of` as connecting once. -/
theorem claim_C6_connect_idempotent (g : Genealogy) (c p : Nat)
    (hc : existsId g c = true) (hp : existsId g p = true) :
    (p ∈ parentsOf g.known_ids c → connect g c p = (none, g)) ∧
    (p ∉ parentsOf g.known_ids c →
      connect g c p = (none, ⟨g.stem_id, addEdge g.known_ids c p⟩) ∧
      parentsOf (connect g c p).2.known_ids c = parentsOf g.known_ids c ++ [p] ∧
      childrenOf (connect g c p).2.known_ids p = childrenOf g.known_ids p ++ [c]) ∧
    connect (connect g c p).2 c p = (none, (connect g c p).2) ∧
    get_parents (connect (connect g c p).2 c p).2 c = get_parents (connect g c p).2 c := by
  have hguard : ¬ ((!existsId g c || !existsId g p) = true) := by
    rw [hc, hp]
    exact Bool.noConfusion
  have hmem : ∀ hm : p ∈ parentsOf g.known_ids c, connect g c p = (none, g) := by
    intro hm
    unfold connect
    rw [if_neg hguard, if_pos hm]
  have hnomem : ∀ hm : p ∉ parentsOf g.known_ids c,
      connect g c p = (none, ⟨g.stem_id, addEdge g.known_ids c p⟩) := by
    intro hm
    unfold connect
    rw [if_neg hguard, if_neg hm]
  have htwice : connect (connect g c p).2 c p = (none, (connect g c p).2) := by
    by_cases hm : p ∈ parentsOf g.known_ids c
    · rw [hmem hm]
      exact hmem hm
    · rw [hnomem hm]
      show connect ⟨g.stem_id, addEdge g.known_ids c p⟩ c p = _
      unfold connect
      have hc2 : existsId (⟨g.stem_id, addEdge g.known_ids c p⟩ : Genealogy) c = true := by
        show containsId (addEdge g.known_ids c p) c = true
        rw [containsId_addEdge]
        exact hc
      have hp2 : existsId (⟨g.stem_id, addEdge g.known_ids c p⟩ : Genealogy) p = true := by
        show containsId (addEdge g.known_ids c p) p = true
        rw [containsId_addEdge]
        exact hp
      rw [if_neg (by rw [hc2, hp2]; exact Bool.noConfusion), if_pos ?_]
      show p ∈ parentsOf (addEdge g.known_ids c p) c
      rw [parentsOf_addEdge g.known_ids c p c hc, if_pos rfl]
      exact List.mem_append.2 (Or.inr (List.mem_singleton.2 rfl))
  refine ⟨hmem, ?_, htwice, by rw [htwice]⟩
  intro hm
  refine ⟨hnomem hm, ?_, ?_⟩
  · rw [hnomem hm]
    show parentsOf (addEdge g.known_ids c p) c = _
    rw [parentsOf_addEdge g.known_ids c p c hc, if_pos rfl]
  · rw [hnomem hm]
    show childrenOf (addEdge g.known_ids c p) p = _
    rw [childrenOf_addEdge g.known_ids c p p hp, if_pos rfl]

theorem claim_C6_witness :
    connect twoGraph 1 0 = (none, twoGraph) ∧
    connect (connect twoGraph 0 1).2 0 1 = (none, (connect twoGraph 0 1).2) ∧
    parentsOf (connect twoGraph 0 1).2.known_ids 0 = [1] := by
  have h1 := claim_C6_connect_idempotent twoGraph 1 0 (by decide) (by decide)
  have h2 := claim_C6_connect_idempotent twoGraph 0 1 (by decide) (by decide)
  refine ⟨h1.1 (by decide), h2.2.2.1, ?_⟩
  have h3 := (h2.2.1 (by decide)).2.1
  rw [h3]
  rfl

/-- Claim C7 counterexample: the state left behind by the failing
`remove(1)` on the cycle-through-root graph is reachable through the public
operations, yet edge consistency is violated in it (node 1 still lists 0 as a
parent while node 0 no longer lists 1 as a child). -/
theorem claim_C7_counterexample :
    Reachable cycleResult.2 ∧ ¬ EdgeCon cycleResult.2.known_ids := by
  constructor
  · have r0 : Reachable (mkGenealogy 0) := Reachable.init 0
    have r1 : Reachable (create vOkTrue (mkGenealogy 0) 1 0).2 :=
      Reachable.step_create (mkGenealogy 0) vOkTrue 1 0 r0
    have r2 : Reachable cycleGraph :=
      Reachable.step_connect (create vOkTrue (mkGenealogy 0) 1 0).2 0 1 r1
    exact Reachable.step_remove cycleGraph 1 3 (some .TriedToRemoveStemVirus)
      cycleResult.2 r2 (by decide)
  · intro h
    exact absurd (h 1 0) (by decide)

/-- Claim C7 (amended): edge consistency (P occurs in C's parent list exactly
as often as C occurs in P's child list) holds initially and is preserved by
every `create`, every `create_many`, every `connect` (successful or failing)
and every `remove` that completes successfully; only a `remove` failing from
inside its cascade can break it. -/
theorem claim_C7_amended :
    (∀ s, EdgeCon (mkGenealogy s).known_ids) ∧
    (∀ vOk g (i p : Nat), EdgeCon g.known_ids → EdgeCon (create vOk g i p).2.known_ids) ∧
    (∀ vOk g (i : Nat) ps, EdgeCon g.known_ids →
      EdgeCon (create_many vOk g i ps).2.known_ids) ∧
    (∀ g (c p : Nat), EdgeCon g.known_ids → EdgeCon (connect g c p).2.known_ids) ∧
    (∀ (f : Nat) g (x : Nat) g1, EdgeCon g.known_ids → removeFuel f g x = some (none, g1) →
      EdgeCon g1.known_ids) := by
  refine ⟨edgeCon_mk, edgeCon_create, edgeCon_create_many, edgeCon_connect, ?_⟩
  intro f g x g1 hcon hrun
  exact (edgeCon_intinv_nil g1.known_ids).1
    ((removeFuel_main f).2.2 [] g x g1 ((edgeCon_intinv_nil g.known_ids).2 hcon)
      (List.not_mem_nil x) hrun).1

theorem claim_C7_witness :
    EdgeCon (connect twoGraph 0 1).2.known_ids ∧
    EdgeCon ((removeFuel 3 twoGraph 1).getD (none, twoGraph)).2.known_ids := by
  constructor
  · exact claim_C7_amended.2.2.2.1 twoGraph 0 1
      (conB_edgeCon twoGraph.known_ids (by decide))
  · exact claim_C7_amended.2.2.2.2 3 twoGraph 1
      ((removeFuel 3 twoGraph 1).getD (none, twoGraph)).2
      (conB_edgeCon twoGraph.known_ids (by decide)) (by decide)

/-- Claim C8: for a registered id the children iterator pair is `0` and the
child-list length (equal exactly when the child list is empty), dereferencing
positions in order yields each child's payload in edge-insertion order (the
queries are pure functions of the state, mutating nothing), and both calls
fail `VirusNotFound` exactly when the id is unregistered. -/
theorem claim_C8_children_range (g : Genealogy) (i : Nat) :
    (existsId g i = false →
      get_children_begin g i = .error .VirusNotFound ∧
      get_children_end g i = .error .VirusNotFound) ∧
    (existsId g i = true →
      get_children_begin g i = .ok ⟨0⟩ ∧
      get_children_end g i = .ok ⟨(childrenOf g.known_ids i).length⟩ ∧
      ((children_iterator.mk 0 = children_iterator.mk (childrenOf g.known_ids i).length) ↔
        childrenOf g.known_ids i = []) ∧
      (EdgeCon g.known_ids → ∀ k, k < (childrenOf g.known_ids i).length →
        ∃ c, (childrenOf g.known_ids i).get? k = some c ∧
          containsId g.known_ids c = true ∧
          iter_deref g i k = some (virusOf g.known_ids c))) := by
  constructor
  · intro h
    unfold get_children_begin get_children_end
    rw [h]
    exact ⟨rfl, rfl⟩
  · intro h
    unfold get_children_begin get_children_end
    rw [h]
    refine ⟨rfl, rfl, ?_, ?_⟩
    · constructor
      · intro hh
        injection hh with hlen
        exact List.length_eq_zero.1 hlen.symm
      · intro hh
        rw [hh]
        rfl
    · intro hcon k hk
      obtain ⟨c, hc⟩ : ∃ c, (childrenOf g.known_ids i).get? k = some c := by
        rw [List.get?_eq_getElem?]
        exact ⟨_, List.getElem?_eq_getElem hk⟩
      have hmem : c ∈ childrenOf g.known_ids i := by
        have := List.get?_mem hc
        exact this
      have hreg : containsId g.known_ids c = true :=
        edgeCon_child_registered g.known_ids hcon i c hmem
      obtain ⟨n, hn⟩ : ∃ n, regFind g.known_ids c = some n := by
        unfold containsId at hreg
        cases hf : regFind g.known_ids c
        · rw [hf] at hreg
          simp at hreg
        · exact ⟨_, rfl⟩
      refine ⟨c, hc, hreg, ?_⟩
      unfold iter_deref
      rw [hc]
      show Option.map Node.virus (regFind g.known_ids c) = some (virusOf g.known_ids c)
      unfold virusOf
      rw [hn]
      rfl

theorem claim_C8_witness :
    get_children_begin twoGraph 0 = .ok ⟨0⟩ ∧
    get_children_end twoGraph 0 = .ok ⟨1⟩ ∧
    iter_deref twoGraph 0 0 = some 1 ∧
    get_children_begin twoGraph 1 = get_children_end twoGraph 1 ∧
    get_children_begin twoGraph 9 = .error .VirusNotFound := by
  have h0 := (claim_C8_children_range twoGraph 0).2 (by decide)
  have h1 := (claim_C8_children_range twoGraph 1).2 (by decide)
  have h9 := (claim_C8_children_range twoGraph 9).1 (by decide)
  obtain ⟨c, hc, _, hd⟩ := h0.2.2.2 (conB_edgeCon twoGraph.known_ids (by decide)) 0 (by decide)
  have hc1 : c = 1 := by
    have : (childrenOf twoGraph.known_ids 0).get? 0 = some 1 := by decide
    rw [this] at hc
    exact (Option.some.inj hc).symm
  refine ⟨h0.1, h0.2.1, ?_, ?_, h9.1⟩
  · rw [hd, hc1]
    rfl
  · rw [h1.1, h1.2.1]
    rfl

/-- Claim C9: `exists_all` is vacuously true on the empty sequence, and in
general is true exactly when every id in the sequence individually exists. -/
theorem claim_C9_exists_all (g : Genealogy) :
    existsAll g [] = true ∧
    ∀ ids : List Nat, existsAll g ids = true ↔ ∀ i ∈ ids, existsId g i = true :=
  ⟨rfl, fun ids => existsAll_forall g ids⟩

/-- Claim C10: the single-parent overload `create(id, parent_id)` is
observably identical to the multi-parent overload applied to the one-element
list `[parent_id]`: same error (checked in the same order) in every state and
the same resulting state on success. -/
theorem claim_C10_create_refines (vOk : Nat → Bool) (g : Genealogy) (i p : Nat) :
    create vOk g i p = create_many vOk g i [p] := by
  unfold create create_many
  by_cases h1 : existsId g i
  · rw [if_pos h1, if_pos h1]
  · rw [if_neg h1, if_neg h1]
    have hall : existsAll g [p] = existsId g p := by
      unfold existsAll
      by_cases hp : existsId g p = false
      · rw [if_pos hp, hp]
      · rw [if_neg hp]
        have : existsId g p = true := by
          cases hb : existsId g p
          · exact absurd hb hp
          · rfl
        rw [this]
        rfl
    by_cases h2 : existsId g p = false
    · have h2a : existsAll g [p] = false := by rw [hall]; exact h2
      rw [if_pos h2, if_pos h2a]
    · have h2a : ¬ (existsAll g [p] = false) := by rw [hall]; exact h2
      rw [if_neg h2, if_neg h2a]
      rw [if_neg (by exact List.cons_ne_nil p [] : ([p] : List Nat) ≠ [])]
      by_cases h3 : vOk i = false
      · rw [if_pos h3, if_pos h3]
      · rw [if_neg h3, if_neg h3]
        rfl
